import Mathlib

/-!
Verification development for the SWRL_Viz repository: a converter from SWRL
(Semantic Web Rule Language) rule strings to DOT graph text.

The Python source (`src/SWRL_Viz.py`, class `SWRLToDOT`) is shallowly embedded
here.  Python strings are modelled as `List Char` (sequences of code points).
Python's `re` constructs are embedded by their exact backtracking semantics for
the two fixed patterns the program uses:

  class_pattern    = r'(\w+):(\w+)\((\?\w+)\)'
  property_pattern = r'(\w+):(\w+)\((\?\w+),\s*(.+?)\)'

both used with `re.match` (anchored at the start of the string only).
`\w` and `\s` are modelled by their ASCII cores (alphanumeric or underscore,
resp. space/tab/CR/LF); every identifier and whitespace character appearing in
this development is ASCII, where the two notions agree with Python's.
Exceptions (`ValueError`) are modelled by `Except SWRLError`, with one
constructor per distinct raise site of the source.  File output is modelled as
an explicit event trace (the source's companion `print` call is not modelled;
no claim concerns it).
-/

deriving instance DecidableEq for Except

/-- Python `\w` (ASCII core): letters, digits, underscore. -/
def isWordChar (c : Char) : Bool := c.isAlphanum || c == '_'

/-- Python `\s` / `str.strip` whitespace (ASCII core). -/
def isSpaceChar (c : Char) : Bool := c.isWhitespace

/-- The characters of a Lean string literal, used to transcribe the Python
string literals of the source. -/
def lit (s : String) : List Char := s.data

/-- Python `str.strip()`: remove leading and trailing whitespace. -/
def strip (s : List Char) : List Char :=
  ((s.dropWhile isSpaceChar).reverse.dropWhile isSpaceChar).reverse

/-- Prepend a character to the first piece of a split result
(helper for `splitArrow`). -/
def consHead (c : Char) : List (List Char) → List (List Char)
  | [] => [[c]]
  | p :: ps => (c :: p) :: ps

/-- Python `rule.split('->')` (line 16): split on every non-overlapping
occurrence of `->`, scanning left to right. -/
def splitArrow : List Char → List (List Char)
  | '-' :: '>' :: rest => [] :: splitArrow rest
  | c :: rest => consHead c (splitArrow rest)
  | [] => [[]]

/-- The number of non-overlapping occurrences of `->` in a string, scanning
left to right (the count `str.split` separates on). -/
def countArrow : List Char → Nat
  | '-' :: '>' :: rest => countArrow rest + 1
  | _ :: rest => countArrow rest
  | [] => 0

/-- Python `re.split(r'\\s*\\^\\s*', s)` (lines 24-25): each separator match is
one `^` together with the maximal whitespace runs immediately around it.  The
`skip` flag is true exactly while inside the whitespace run that follows a
`^` (the separator's trailing `\\s*`); the whitespace run preceding a `^` is
removed from the accumulated piece when the `^` is reached. -/
def splitCaretAux (skip : Bool) (acc : List Char) : List Char → List (List Char)
  | [] => [acc.reverse]
  | c :: rest =>
    if skip && isSpaceChar c then splitCaretAux true acc rest
    else if c == '^' then
      (acc.dropWhile isSpaceChar).reverse :: splitCaretAux true [] rest
    else splitCaretAux false (c :: acc) rest

def splitCaret (s : List Char) : List (List Char) := splitCaretAux false [] s

/-- Lines 20-25 composed for one side of the rule: strip the side, split it on
the conjunction separator, and strip every atom. -/
def atomize (s : List Char) : List (List Char) :=
  (splitCaret (strip s)).map strip

/-- The two distinct `ValueError` raise sites of the source (the spec calls
them `MalformedRuleError`, line 18, and `UnparsableAtomError`, line 58). -/
inductive SWRLError where
  | malformedRule
  | unparsableAtom
deriving DecidableEq, Repr

/-- The `part` tag attached to every parsed atom (lines 74 and 79). -/
inductive RulePart where
  | antecedent
  | consequent
deriving DecidableEq, Repr

/-- The result of `parse_atom` (lines 39-44 and 50-56): a tagged union of the
two dictionary shapes the source returns. -/
inductive Atom where
  | classAtom (pfx className var : List Char)
  | propertyAtom (pfx propertyName subject obj : List Char)
deriving DecidableEq, Repr

/-- One entry of `self.properties` (lines 99-104). -/
structure PropRecord where
  subject : List Char
  predicate : List Char
  obj : List Char
  part : RulePart
deriving DecidableEq, Repr

abbrev ClassMap := List (List Char × List (List Char × RulePart))

/-- The mutable attributes of a `SWRLToDOT` instance (lines 7-11): `variables`
is a Python set (modelled as an insertion-ordered duplicate-free list),
`classes` a dict from variable to its list of (class, part) entries, and
`properties` a list of records.  `atoms` is set by `__init__` and never used
afterwards. -/
structure ConvState where
  vars : List (List Char)
  classes : ClassMap
  properties : List PropRecord
  atoms : List (Atom × RulePart)
deriving DecidableEq, Repr

def initState : ConvState := ⟨[], [], [], []⟩

/-- Python `set.add`. -/
def setAdd (l : List (List Char)) (a : List Char) : List (List Char) :=
  if a ∈ l then l else l ++ [a]

/-- Python `set(xs)` built by repeated `add`. -/
def pySet (l : List (List Char)) : List (List Char) := l.foldl setAdd []

/-- Lines 87-92: `self.classes[var].append(entry)`, creating the key with an
empty list first when absent. -/
def classesAppend : ClassMap → List Char → (List Char × RulePart) → ClassMap
  | [], v, e => [(v, [e])]
  | (k, es) :: rest, v, e =>
    if k = v then (k, es ++ [e]) :: rest else (k, es) :: classesAppend rest v e

/-- Dict lookup with the `if var in self.classes` guard of line 162: an absent
key contributes nothing. -/
def lookupD : ClassMap → List Char → List (List Char × RulePart)
  | [], _ => []
  | (k, es) :: rest, v => if k = v then es else lookupD rest v

/-- Python `obj.startswith('?')` (lines 97 and 151). -/
def startsWithQ : List Char → Bool
  | '?' :: _ => true
  | _ => false

/-! ## The two regular expressions (`parse_atom`, lines 29-58) -/

/-- The `\)`-terminated scan of the lazy group: chars strictly before the first
`)` of the input, failing on a newline (which `.` does not match) or when no
`)` remains. -/
def scanGo : List Char → Option (List Char)
  | [] => none
  | d :: rest =>
    if d == ')' then some []
    else if d == '\n' then none
    else (scanGo rest).map (d :: ·)

/-- `(.+?)\)`: at least one non-newline character (the first one may be
anything, even `)`), then the earliest possible closing parenthesis. -/
def scanObj : List Char → Option (List Char)
  | [] => none
  | c :: rest =>
    if c == '\n' then none else (scanGo rest).map (c :: ·)

/-- `\s*(.+?)\)` with Python's backtracking order: the greedy `\s*` prefers to
consume each whitespace character, falling back to stopping early only when
the rest of the pattern cannot match. -/
def objCapture : List Char → Option (List Char)
  | [] => none
  | c :: rest =>
    if isSpaceChar c then
      match objCapture rest with
      | some o => some o
      | none => scanObj (c :: rest)
    else scanObj (c :: rest)

/-- `re.match(r'(\w+):(\w+)\((\?\w+)\)', atom)` (line 36): maximal-munch is
exact here because every `\w+` group is followed by a non-word literal.
Returns the three captured groups; trailing text is ignored (`re.match` does
not anchor at the end). -/
def matchClass (atom : List Char) : Option (List Char × List Char × List Char) :=
  let w1 := atom.takeWhile isWordChar
  if w1 = [] then none else
  match atom.dropWhile isWordChar with
  | ':' :: r2 =>
    let w2 := r2.takeWhile isWordChar
    if w2 = [] then none else
    match r2.dropWhile isWordChar with
    | '(' :: '?' :: r4 =>
      let w3 := r4.takeWhile isWordChar
      if w3 = [] then none else
      match r4.dropWhile isWordChar with
      | ')' :: _ => some (w1, w2, '?' :: w3)
      | _ => none
    | _ => none
  | _ => none

/-- `re.match(r'(\w+):(\w+)\((\?\w+),\s*(.+?)\)', atom)` (line 46), returning
the four captured groups. -/
def matchProperty (atom : List Char) :
    Option (List Char × List Char × List Char × List Char) :=
  let w1 := atom.takeWhile isWordChar
  if w1 = [] then none else
  match atom.dropWhile isWordChar with
  | ':' :: r2 =>
    let w2 := r2.takeWhile isWordChar
    if w2 = [] then none else
    match r2.dropWhile isWordChar with
    | '(' :: '?' :: r4 =>
      let w3 := r4.takeWhile isWordChar
      if w3 = [] then none else
      match r4.dropWhile isWordChar with
      | ',' :: r6 => (objCapture r6).map (fun o => (w1, w2, '?' :: w3, o))
      | _ => none
    | _ => none
  | _ => none

/-- `parse_atom` (lines 29-58): try the class pattern, then the property
pattern (whose object group is stripped, line 49), otherwise raise. -/
def parse_atom (atom : List Char) : Except SWRLError Atom :=
  match matchClass atom with
  | some (pfx, cn, v) => .ok (.classAtom pfx cn v)
  | none =>
    match matchProperty atom with
    | some (pfx, pn, s, o) => .ok (.propertyAtom pfx pn s (strip o))
    | none => .error .unparsableAtom

/-- `parse_swrl_rule` (lines 13-27): split on `->`, demand exactly two parts
(else `ValueError`, line 18), then split each stripped side into stripped
atoms. -/
def parse_swrl_rule (rule : List Char) :
    Except SWRLError (List (List Char) × List (List Char)) :=
  match splitArrow rule with
  | [a, c] => .ok (atomize a, atomize c)
  | _ => .error .malformedRule

/-- Lines 71-80: parse the atoms of one side in order, tagging each with its
part; the first unparsable atom aborts the conversion. -/
def parseAtomsTagged (part : RulePart) : List (List Char) → Except SWRLError (List (Atom × RulePart))
  | [] => .ok []
  | a :: rest => do
    let pa ← parse_atom a
    let prest ← parseAtomsTagged part rest
    .ok ((pa, part) :: prest)

/-- Lines 83-104: fold one parsed atom into the model. -/
def processAtom (st : ConvState) (t : Atom × RulePart) : ConvState :=
  match t.1 with
  | .classAtom pfx cn v =>
    { st with
      vars := setAdd st.vars v
      classes := classesAppend st.classes v (pfx ++ ':' :: cn, t.2) }
  | .propertyAtom pfx pn s o =>
    let vars := setAdd st.vars s
    let vars := if startsWithQ o then setAdd vars o else vars
    { st with
      vars := vars
      properties := st.properties ++ [⟨s, pfx ++ ':' :: pn, o, t.2⟩] }

def buildModel (ts : List (Atom × RulePart)) (st : ConvState) : ConvState :=
  ts.foldl processAtom st

/-! ## DOT emission (`_create_dot_graph`, lines 117-190) -/

/-- Python string `<=` on code points, as used by `sorted`.  Equality of
characters is tested through their code points, which coincides with
character equality. -/
def lexLe : List Char → List Char → Bool
  | [], _ => true
  | _ :: _, [] => false
  | x :: xs, y :: ys =>
    if x.toNat = y.toNat then lexLe xs ys else decide (x.toNat < y.toNat)

def lexLeP (a b : List Char) : Prop := lexLe a b = true

instance : DecidableRel lexLeP := fun a b => inferInstanceAs (Decidable (lexLe a b = true))

/-- Python `sorted`: the unique lexicographically sorted permutation of a
duplicate-free list (realised by insertion sort). -/
def pySorted (l : List (List Char)) : List (List Char) := List.insertionSort lexLeP l

def classNodeLine (cls : List Char) : List Char :=
  lit "    \"" ++ cls ++ lit "\" [shape=ellipse, fillcolor=lightgreen, style=filled];"

def varNodeLine (v : List Char) : List Char :=
  lit "    \"" ++ v ++ lit "\" [label=\"" ++ v ++
    lit "\", fillcolor=lightblue, style=\"rounded,filled\"];"

def litNodeLine (l : List Char) : List Char :=
  lit "    \"" ++ l ++ lit "\" [shape=box, style=filled, fillcolor=lightyellow];"

/-- Lines 166-170: the consequent style is colored, bold (penwidth 2) and
dashed; the antecedent style is plain dashed. -/
def rdfEdgeLine (cls v : List Char) : RulePart → List Char
  | .consequent =>
    lit "    \"" ++ cls ++ lit "\" -> \"" ++ v ++
      lit "\" [label=\"rdf:type\", color=blue, penwidth=2, style=dashed];"
  | .antecedent =>
    lit "    \"" ++ cls ++ lit "\" -> \"" ++ v ++ lit "\" [label=\"rdf:type\", style=dashed];"

/-- Lines 182-186: the consequent style is colored and bold; the antecedent
style is plain. -/
def propEdgeLine (s p o : List Char) : RulePart → List Char
  | .consequent =>
    lit "    \"" ++ s ++ lit "\" -> \"" ++ o ++ lit "\" [label=\"" ++ p ++
      lit "\", color=blue, penwidth=2];"
  | .antecedent =>
    lit "    \"" ++ s ++ lit "\" -> \"" ++ o ++ lit "\" [label=\"" ++ p ++ lit "\"];"

def headerLines : List (List Char) :=
  [lit "digraph SWRL_Rule \x7b", lit "    rankdir=LR;",
   lit "    node [shape=box, style=rounded];", []]

/-- Lines 126-130: every class occurrence, in dict-then-entry order. -/
def classOccs (st : ConvState) : List (List Char) :=
  (st.classes.map (fun kv => kv.2.map (·.1))).flatten

/-- Lines 148-152: the object of every property relation that is not a
variable reference, in relation order. -/
def litOccs (st : ConvState) : List (List Char) :=
  st.properties.filterMap (fun p => if startsWithQ p.obj then none else some p.obj)

def sortedClasses (st : ConvState) : List (List Char) := pySorted (pySet (classOccs st))

def sortedVars (st : ConvState) : List (List Char) := pySorted st.vars

def sortedLits (st : ConvState) : List (List Char) := pySorted (pySet (litOccs st))

/-- Lines 159-170: one `rdf:type` edge per (variable, class-assertion) pair,
variables in sorted order, assertions in append order. -/
def rdfEdges (st : ConvState) : List (List Char) :=
  (sortedVars st).flatMap (fun v => (lookupD st.classes v).map (fun e => rdfEdgeLine e.1 v e.2))

/-- Lines 174-186: one edge per property relation, in append order. -/
def propEdges (st : ConvState) : List (List Char) :=
  st.properties.map (fun p => propEdgeLine p.subject p.predicate p.obj p.part)

/-- The full `lines` list of `_create_dot_graph` (lines 119-188). -/
def dotLines (st : ConvState) : List (List Char) :=
  headerLines
    ++ (lit "    // Classes" :: (sortedClasses st).map classNodeLine) ++ [[]]
    ++ (lit "    // Variables (Instances)" :: (sortedVars st).map varNodeLine) ++ [[]]
    ++ (lit "    // Literals" :: (sortedLits st).map litNodeLine) ++ [[]]
    ++ (lit "    // Class Assertions (rdf:type)" :: rdfEdges st) ++ [[]]
    ++ (lit "    // Properties" :: propEdges st)
    ++ [lit "\x7d"]

/-- `'\n'.join(lines)` (line 190). -/
def joinLines (ls : List (List Char)) : List Char := List.intercalate ['\n'] ls

def _create_dot_graph (st : ConvState) : List Char := joinLines (dotLines st)

/-- The observable file system effect of a conversion call. -/
inductive FileEvent where
  | write (path content : List Char)
deriving DecidableEq, Repr

/-- `generate_dot` (lines 60-115): reset `variables`/`classes`/`properties`
(lines 63-65; `atoms` is not reset but also never read), parse, build the
model, emit the DOT text, and finally write it to the output file when one is
given.  The returned triple is (DOT text, file events, instance state after
the call). -/
def generate_dot (self : ConvState) (rule : List Char) (output_file : Option (List Char)) :
    Except SWRLError (List Char × List FileEvent × ConvState) :=
  match parse_swrl_rule rule with
  | .error e => .error e
  | .ok (antecedent_atoms, consequent_atoms) =>
    match parseAtomsTagged .antecedent antecedent_atoms with
    | .error e => .error e
    | .ok ta =>
      match parseAtomsTagged .consequent consequent_atoms with
      | .error e => .error e
      | .ok tc =>
        let st := buildModel (ta ++ tc) { initState with atoms := self.atoms }
        let dot := _create_dot_graph st
        let events : List FileEvent :=
          match output_file with
          | some path => [.write path dot]
          | none => []
        .ok (dot, events, st)

/-- The instance state a fresh-converter call on `rule` ends in, when the
conversion succeeds. -/
def runState (rule : List Char) : Option ConvState :=
  match generate_dot initState rule none with
  | .ok (_, _, st) => some st
  | .error _ => none

def modelOf (rule : List Char) : ConvState := (runState rule).getD initState

/-- The tagged atom list of a successful conversion: antecedent atoms in
order, then consequent atoms in order (lines 71-80). -/
def parsedAtomsOf (rule : List Char) : List (Atom × RulePart) :=
  match parse_swrl_rule rule with
  | .error _ => []
  | .ok (as_, cs) =>
    match parseAtomsTagged .antecedent as_, parseAtomsTagged .consequent cs with
    | .ok ta, .ok tc => ta ++ tc
    | _, _ => []

/-- The DOT text of a fresh-converter call, when the conversion succeeds. -/
def runText (rule : List Char) : Option (List Char) :=
  (generate_dot initState rule none).toOption.map (·.1)

def runTextWith (st : ConvState) (rule : List Char) (p : Option (List Char)) :
    Option (List Char) :=
  (generate_dot st rule p).toOption.map (·.1)

def runEventsWith (st : ConvState) (rule : List Char) (p : Option (List Char)) :
    Option (List FileEvent) :=
  (generate_dot st rule p).toOption.map (·.2.1)

def runStateWith (st : ConvState) (rule : List Char) (p : Option (List Char)) :
    Option ConvState :=
  (generate_dot st rule p).toOption.map (·.2.2)

/-- The property record an atom contributes to `self.properties` (lines
93-104), if any. -/
def propProj : Atom × RulePart → Option PropRecord
  | (.propertyAtom pfx pn s o, part) => some ⟨s, pfx ++ ':' :: pn, o, part⟩
  | (.classAtom _ _ _, _) => none

/-- The entry an atom contributes to `self.classes[v]` (lines 84-92), if
any. -/
def classProj (v : List Char) : Atom × RulePart → Option (List Char × RulePart)
  | (.classAtom pfx cn v', part) => if v' = v then some (pfx ++ ':' :: cn, part) else none
  | (.propertyAtom _ _ _ _, _) => none

/-- The variables an atom registers in `self.variables` (lines 84-98), in
registration order. -/
def varMentions : Atom × RulePart → List (List Char)
  | (.classAtom _ _ v, _) => [v]
  | (.propertyAtom _ _ s o, _) => s :: (if startsWithQ o then [o] else [])

def isClassAtom : Atom → Bool
  | .classAtom _ _ _ => true
  | .propertyAtom _ _ _ _ => false

def isPropAtom : Atom → Bool
  | .classAtom _ _ _ => false
  | .propertyAtom _ _ _ _ => true

/-- The last `k` characters of a line, used to tell the fixed tail texts of
the different DOT statement shapes apart. -/
def tailK (k : Nat) (l : List Char) : List Char := l.reverse.take k

/-- The text standing between the last two `"` characters of a line (reading
the line from its end, after the closing `"];`). -/
def quoteSeg (l : List Char) : List Char :=
  (l.reverse.drop 3).takeWhile (fun c => !(c == '"'))

/-! ## Lemmas about the rule splitter -/

theorem consHead_ne_nil (c : Char) : ∀ ps, consHead c ps ≠ []
  | [], h => by simp [consHead] at h
  | _ :: _, h => by simp [consHead] at h

theorem consHead_length (c : Char) : ∀ ps, ps ≠ [] → (consHead c ps).length = ps.length
  | [], h => absurd rfl h
  | _ :: _, _ => rfl

theorem splitArrow_ne_nil (s : List Char) : splitArrow s ≠ [] := by
  induction s using splitArrow.induct with
  | case1 rest ih => simp [splitArrow]
  | case2 c rest h ih => exact fun hc => consHead_ne_nil c _ (by simpa [splitArrow, h] using hc)
  | case3 => simp [splitArrow]

/-- The piece count of `str.split` is one more than the number of separator
occurrences. -/
theorem splitArrow_length (s : List Char) : (splitArrow s).length = countArrow s + 1 := by
  induction s using splitArrow.induct with
  | case1 rest ih => simp [splitArrow, countArrow, ih]
  | case2 c rest h ih =>
    have h1 : splitArrow (c :: rest) = consHead c (splitArrow rest) := by
      simp [splitArrow, h]
    have h2 : countArrow (c :: rest) = countArrow rest := by
      simp [countArrow, h]
    rw [h1, consHead_length c _ (splitArrow_ne_nil rest), ih, h2]
  | case3 => simp [splitArrow, countArrow]

theorem parse_swrl_rule_error_of_length {rule : List Char}
    (h : (splitArrow rule).length ≠ 2) : parse_swrl_rule rule = .error .malformedRule := by
  unfold parse_swrl_rule
  cases hs : splitArrow rule with
  | nil => rfl
  | cons a t =>
    cases t with
    | nil => rfl
    | cons b t2 =>
      cases t2 with
      | nil => exact absurd (by rw [hs]; rfl) h
      | cons c t3 => rfl

theorem parse_swrl_rule_of_two {rule a b : List Char} (hs : splitArrow rule = [a, b]) :
    parse_swrl_rule rule = .ok (atomize a, atomize b) := by
  unfold parse_swrl_rule
  rw [hs]

/-- C2: a rule with a `->` count other than one is rejected with the
malformed-rule error; a rule with exactly one `->` splits into the two
stripped, `^`-separated, atom-stripped sides in source order. -/
theorem C2_separator (rule : List Char) (st : ConvState) (p : Option (List Char)) :
    (countArrow rule ≠ 1 → generate_dot st rule p = .error .malformedRule) ∧
    (countArrow rule = 1 →
      parse_swrl_rule rule =
        .ok (atomize ((splitArrow rule).getD 0 []), atomize ((splitArrow rule).getD 1 []))) := by
  have hlen := splitArrow_length rule
  constructor
  · intro h
    have hp : parse_swrl_rule rule = .error .malformedRule :=
      parse_swrl_rule_error_of_length (by omega)
    unfold generate_dot
    rw [hp]
  · intro h
    rw [h] at hlen
    cases hs : splitArrow rule with
    | nil => rw [hs] at hlen; simp at hlen
    | cons a t =>
      cases t with
      | nil => rw [hs] at hlen; simp at hlen
      | cons b t2 =>
        cases t2 with
        | nil => rw [parse_swrl_rule_of_two hs]; rfl
        | cons c t3 => rw [hs] at hlen; simp at hlen

theorem C2_separator_witness :
    generate_dot initState (lit "A:B(?x)") none = .error .malformedRule ∧
    parse_swrl_rule (lit "A:B(?x) -> A:C(?x)") =
      .ok (atomize ((splitArrow (lit "A:B(?x) -> A:C(?x)")).getD 0 []),
           atomize ((splitArrow (lit "A:B(?x) -> A:C(?x)")).getD 1 [])) :=
  ⟨(C2_separator (lit "A:B(?x)") initState none).1 (by decide),
   (C2_separator (lit "A:B(?x) -> A:C(?x)") initState none).2 (by decide)⟩

/-! ## State independence of a conversion call -/

theorem processAtom_atoms_set (st : ConvState) (a : List (Atom × RulePart)) (t : Atom × RulePart) :
    processAtom { st with atoms := a } t = { processAtom st t with atoms := a } := by
  obtain ⟨at1, part⟩ := t
  cases at1 <;> rfl

theorem buildModel_atoms_set :
    ∀ (ts : List (Atom × RulePart)) (st : ConvState) (a : List (Atom × RulePart)),
      buildModel ts { st with atoms := a } = { buildModel ts st with atoms := a }
  | [], _, _ => rfl
  | t :: ts, st, a => by
    show buildModel ts (processAtom { st with atoms := a } t) = _
    rw [processAtom_atoms_set, buildModel_atoms_set ts (processAtom st t) a]
    rfl

/-! ## Reduction lemmas for `generate_dot` -/

theorem generate_dot_parse_error {rule : List Char} {st : ConvState} {p : Option (List Char)}
    {e : SWRLError} (h : parse_swrl_rule rule = .error e) : generate_dot st rule p = .error e := by
  unfold generate_dot
  rw [h]

theorem generate_dot_ante_error {rule : List Char} {st : ConvState} {p : Option (List Char)}
    {as_ cs : List (List Char)} {e : SWRLError} (h : parse_swrl_rule rule = .ok (as_, cs))
    (h2 : parseAtomsTagged .antecedent as_ = .error e) : generate_dot st rule p = .error e := by
  unfold generate_dot
  rw [h]
  simp only [h2]

theorem generate_dot_cons_error {rule : List Char} {st : ConvState} {p : Option (List Char)}
    {as_ cs : List (List Char)} {ta : List (Atom × RulePart)} {e : SWRLError}
    (h : parse_swrl_rule rule = .ok (as_, cs))
    (h2 : parseAtomsTagged .antecedent as_ = .ok ta)
    (h3 : parseAtomsTagged .consequent cs = .error e) : generate_dot st rule p = .error e := by
  unfold generate_dot
  rw [h]
  simp only [h2, h3]

theorem generate_dot_ok {rule : List Char} {st : ConvState} {p : Option (List Char)}
    {as_ cs : List (List Char)} {ta tc : List (Atom × RulePart)}
    (h : parse_swrl_rule rule = .ok (as_, cs))
    (h2 : parseAtomsTagged .antecedent as_ = .ok ta)
    (h3 : parseAtomsTagged .consequent cs = .ok tc) :
    generate_dot st rule p =
      .ok (_create_dot_graph (buildModel (ta ++ tc) { initState with atoms := st.atoms }),
        (match p with
          | some path =>
            [.write path (_create_dot_graph (buildModel (ta ++ tc) { initState with atoms := st.atoms }))]
          | none => []),
        buildModel (ta ++ tc) { initState with atoms := st.atoms }) := by
  unfold generate_dot
  rw [h]
  simp only [h2, h3]

theorem create_dot_graph_atoms_irrel (st : ConvState) (a : List (Atom × RulePart)) :
    _create_dot_graph { st with atoms := a } = _create_dot_graph st := rfl

/-- C7: the DOT text and the file events of a conversion do not depend on the
converter instance's state at call time: `generate_dot` rebuilds
`variables`/`classes`/`properties` from empty (lines 63-65) and the one
attribute it does not reset (`atoms`) is never read.  In particular a second
call on the same rule string (whatever state the first call left behind)
yields byte-identical DOT text and identical file events, so reusing one
instance agrees with using fresh instances. -/
theorem C7_stateless (st₁ st₂ : ConvState) (rule : List Char) (p : Option (List Char)) :
    (generate_dot st₁ rule p).map (fun r => (r.1, r.2.1)) =
    (generate_dot st₂ rule p).map (fun r => (r.1, r.2.1)) := by
  cases hpr : parse_swrl_rule rule with
  | error e => rw [generate_dot_parse_error hpr, generate_dot_parse_error hpr]
  | ok pr =>
    obtain ⟨as_, cs⟩ := pr
    cases hta : parseAtomsTagged .antecedent as_ with
    | error e => rw [generate_dot_ante_error hpr hta, generate_dot_ante_error hpr hta]
    | ok ta =>
      cases htc : parseAtomsTagged .consequent cs with
      | error e => rw [generate_dot_cons_error hpr hta htc, generate_dot_cons_error hpr hta htc]
      | ok tc =>
        rw [generate_dot_ok hpr hta htc, generate_dot_ok hpr hta htc]
        simp only [Except.map, buildModel_atoms_set, create_dot_graph_atoms_irrel]

/-- C8: the DOT text is computed in full before any file write (the single
write event carries exactly the returned text), no file event occurs when no
output path is supplied, and the returned value is always the emitted DOT
text of the final model (line 115), whether or not a file was written. -/
theorem C8_compute_before_write (st : ConvState) (rule : List Char) (p : Option (List Char))
    (h : (generate_dot st rule p).toOption.isSome = true) :
    runTextWith st rule p = some (_create_dot_graph ((runStateWith st rule p).getD initState)) ∧
    (p = none → runEventsWith st rule p = some []) ∧
    (∀ path, p = some path →
      runEventsWith st rule p = some [.write path ((runTextWith st rule p).getD [])]) := by
  cases hpr : parse_swrl_rule rule with
  | error e => rw [generate_dot_parse_error hpr] at h; simp [Except.toOption] at h
  | ok pr =>
    obtain ⟨as_, cs⟩ := pr
    cases hta : parseAtomsTagged .antecedent as_ with
    | error e => rw [generate_dot_ante_error hpr hta] at h; simp [Except.toOption] at h
    | ok ta =>
      cases htc : parseAtomsTagged .consequent cs with
      | error e => rw [generate_dot_cons_error hpr hta htc] at h; simp [Except.toOption] at h
      | ok tc =>
        have hg := @generate_dot_ok rule st p as_ cs ta tc hpr hta htc
        refine ⟨?_, ?_, ?_⟩
        · simp [runTextWith, runStateWith, hg, Except.toOption]
        · intro hp
          subst hp
          simp [runEventsWith, hg, Except.toOption]
        · intro path hp
          subst hp
          simp [runEventsWith, runTextWith, hg, Except.toOption]

theorem C8_compute_before_write_witness :
    runTextWith initState (lit "A:Foo(?x) -> A:hasVal(?x, 5)") (some (lit "out.dot")) =
      some (_create_dot_graph
        ((runStateWith initState (lit "A:Foo(?x) -> A:hasVal(?x, 5)")
          (some (lit "out.dot"))).getD initState)) ∧
    runEventsWith initState (lit "A:Foo(?x) -> A:hasVal(?x, 5)") (some (lit "out.dot")) =
      some [.write (lit "out.dot")
        ((runTextWith initState (lit "A:Foo(?x) -> A:hasVal(?x, 5)")
          (some (lit "out.dot"))).getD [])] := by
  have h := C8_compute_before_write initState (lit "A:Foo(?x) -> A:hasVal(?x, 5)")
    (some (lit "out.dot")) (by decide)
  exact ⟨h.1, h.2.2 _ rfl⟩

set_option maxRecDepth 40000 in
/-- C1: converting `A:Foo(?x) -> A:hasVal(?x, 5)` succeeds; the emitted DOT
text (the newline-join of `dotLines`) contains exactly one class node
declaration for `A:Foo`, one variable node declaration for `?x`, one literal
node declaration for `5`, one antecedent-style (plain dashed) `rdf:type` edge
from `A:Foo` to `?x`, and one consequent-style (blue, penwidth 2) property
edge from `?x` to `5` labeled `A:hasVal`. -/
theorem C1_scenario :
    (runState (lit "A:Foo(?x) -> A:hasVal(?x, 5)")).isSome = true ∧
    runText (lit "A:Foo(?x) -> A:hasVal(?x, 5)") =
      some (joinLines (dotLines (modelOf (lit "A:Foo(?x) -> A:hasVal(?x, 5)")))) ∧
    (dotLines (modelOf (lit "A:Foo(?x) -> A:hasVal(?x, 5)"))).count
      (classNodeLine (lit "A:Foo")) = 1 ∧
    (dotLines (modelOf (lit "A:Foo(?x) -> A:hasVal(?x, 5)"))).count
      (varNodeLine (lit "?x")) = 1 ∧
    (dotLines (modelOf (lit "A:Foo(?x) -> A:hasVal(?x, 5)"))).count
      (litNodeLine (lit "5")) = 1 ∧
    (dotLines (modelOf (lit "A:Foo(?x) -> A:hasVal(?x, 5)"))).count
      (rdfEdgeLine (lit "A:Foo") (lit "?x") .antecedent) = 1 ∧
    (dotLines (modelOf (lit "A:Foo(?x) -> A:hasVal(?x, 5)"))).count
      (propEdgeLine (lit "?x") (lit "A:hasVal") (lit "5") .consequent) = 1 := by
  decide

/-! ## The only atom-level error is the unparsable-atom error -/

theorem parse_atom_error_eq {a : List Char} {e : SWRLError} (h : parse_atom a = .error e) :
    e = .unparsableAtom := by
  unfold parse_atom at h
  cases hc : matchClass a with
  | some g =>
    obtain ⟨pfx, cn, v⟩ := g
    simp only [hc] at h
    exact Except.noConfusion h
  | none =>
    simp only [hc] at h
    cases hp : matchProperty a with
    | some g =>
      obtain ⟨pfx, pn, s, o⟩ := g
      simp only [hp] at h
      exact Except.noConfusion h
    | none =>
      simp only [hp] at h
      injection h with h
      exact h.symm

theorem parseAtomsTagged_error {part : RulePart} :
    ∀ {l : List (List Char)} {e : SWRLError},
      parseAtomsTagged part l = .error e → e = .unparsableAtom := by
  intro l
  induction l with
  | nil => intro e h; exact Except.noConfusion h
  | cons a rest ih =>
    intro e h
    simp only [parseAtomsTagged] at h
    cases hpa : parse_atom a with
    | error e1 =>
      rw [hpa] at h
      have h2 : (Except.error e1 : Except SWRLError (List (Atom × RulePart))) = .error e := h
      injection h2 with h2
      exact h2 ▸ parse_atom_error_eq hpa
    | ok pa =>
      rw [hpa] at h
      have h2 : (parseAtomsTagged part rest >>= fun prest =>
          Except.ok ((pa, part) :: prest)) = .error e := h
      cases hrest : parseAtomsTagged part rest with
      | error e2 =>
        rw [hrest] at h2
        have h3 : (Except.error e2 : Except SWRLError (List (Atom × RulePart))) = .error e := h2
        injection h3 with h3
        exact h3 ▸ ih hrest
      | ok ta =>
        rw [hrest] at h2
        have h3 : (Except.ok ((pa, part) :: ta) :
            Except SWRLError (List (Atom × RulePart))) = .error e := h2
        exact Except.noConfusion h3

theorem parseAtomsTagged_nil_mem {part : RulePart} :
    ∀ {l : List (List Char)}, [] ∈ l → parseAtomsTagged part l = .error .unparsableAtom := by
  intro l
  induction l with
  | nil => intro h; exact absurd h (List.not_mem_nil _)
  | cons a rest ih =>
    intro h
    simp only [parseAtomsTagged]
    rcases List.mem_cons.mp h with h1 | h1
    · rw [← h1]
      rfl
    · cases hpa : parse_atom a with
      | error e1 =>
        cases parse_atom_error_eq hpa
        rfl
      | ok pa =>
        show (parseAtomsTagged part rest >>= fun prest => Except.ok ((pa, part) :: prest)) = _
        rw [ih h1]
        rfl

theorem dropWhile_concat_caret :
    ∀ z : List Char, ∃ z1, (z ++ ['^']).dropWhile isSpaceChar = z1 ++ ['^'] := by
  intro z
  induction z with
  | nil => exact ⟨[], rfl⟩
  | cons c z' ih =>
    rw [List.cons_append, List.dropWhile_cons]
    split
    · exact ih
    · exact ⟨c :: z', rfl⟩

theorem strip_concat_caret (z : List Char) : ∃ z1, strip (z ++ ['^']) = z1 ++ ['^'] := by
  obtain ⟨z1, h1⟩ := dropWhile_concat_caret z
  refine ⟨z1, ?_⟩
  unfold strip
  rw [h1, List.reverse_append]
  show ((['^'] ++ z1.reverse).dropWhile isSpaceChar).reverse = _
  rw [List.singleton_append, List.dropWhile_cons]
  split
  · simp_all [isSpaceChar]
  · rw [List.reverse_cons, List.reverse_reverse]

theorem splitCaretAux_concat_caret :
    ∀ (z : List Char) (skip : Bool) (acc : List Char),
      ∃ ps, splitCaretAux skip acc (z ++ ['^']) = ps ++ [[]] := by
  intro z
  induction z with
  | nil =>
    intro skip acc
    exact ⟨[(acc.dropWhile isSpaceChar).reverse],
      by simp [splitCaretAux, show isSpaceChar '^' = false from rfl]⟩
  | cons c z' ih =>
    intro skip acc
    rw [List.cons_append, splitCaretAux]
    split
    · exact ih true acc
    · split
      · obtain ⟨ps, hp⟩ := ih true []
        exact ⟨(acc.dropWhile isSpaceChar).reverse :: ps, by rw [hp, List.cons_append]⟩
      · exact ih false (c :: acc)

theorem atomize_concat_caret (z : List Char) : [] ∈ atomize (z ++ ['^']) := by
  unfold atomize
  obtain ⟨z1, h1⟩ := strip_concat_caret z
  rw [h1]
  obtain ⟨ps, hp⟩ := splitCaretAux_concat_caret z1 false []
  show [] ∈ (splitCaretAux false [] (z1 ++ ['^'])).map strip
  rw [hp, List.map_append]
  exact List.mem_append_right _ (by simp [strip])

theorem atomize_of_strip_nil {s : List Char} (h : strip s = []) : atomize s = [[]] := by
  unfold atomize splitCaret
  rw [h]
  rfl

/-- C9: a rule whose antecedent or consequent side yields an empty atom string
is rejected with the unparsable-atom error: the empty atom matches neither
grammar.  A side that is empty (or whitespace-only) atomizes to the single
empty atom, and a side with a trailing `^` atomizes to a list containing the
empty atom, so such rules are covered. -/
theorem C9_empty_atom (st : ConvState) (rule : List Char) (p : Option (List Char))
    (as_ cs : List (List Char)) (h : parse_swrl_rule rule = .ok (as_, cs))
    (hmem : [] ∈ as_ ∨ [] ∈ cs) :
    generate_dot st rule p = .error .unparsableAtom ∧
    (∀ s, strip s = [] → atomize s = [[]]) ∧
    (∀ z, [] ∈ atomize (z ++ ['^'])) := by
  refine ⟨?_, fun s hs => atomize_of_strip_nil hs, fun z => atomize_concat_caret z⟩
  rcases hmem with hm | hm
  · exact generate_dot_ante_error h (parseAtomsTagged_nil_mem hm)
  · cases hta : parseAtomsTagged .antecedent as_ with
    | error e =>
      cases parseAtomsTagged_error hta
      exact generate_dot_ante_error h hta
    | ok ta => exact generate_dot_cons_error h hta (parseAtomsTagged_nil_mem hm)

theorem C9_empty_atom_witness :
    generate_dot initState (lit " -> A:C(?x)") none = .error .unparsableAtom :=
  (C9_empty_atom initState (lit " -> A:C(?x)") none [[]] [lit "A:C(?x)"]
    (by decide) (Or.inl (by decide))).1

/-! ## Evaluating the two atom grammars on shaped inputs -/

theorem takeWhile_append_word {p : Char → Bool} :
    ∀ (w : List Char), (∀ c ∈ w, p c = true) → ∀ {d : Char} {r : List Char}, p d = false →
      (w ++ d :: r).takeWhile p = w ∧ (w ++ d :: r).dropWhile p = d :: r := by
  intro w hw
  induction w with
  | nil =>
    intro d r hd
    constructor
    · simp [List.takeWhile_cons, hd]
    · simp [List.dropWhile_cons, hd]
  | cons a w' ih =>
    intro d r hd
    have ha : p a = true := hw a (List.mem_cons_self a w')
    have hw' : ∀ c ∈ w', p c = true := fun c hc => hw c (List.mem_cons_of_mem a hc)
    obtain ⟨h1, h2⟩ := ih hw' (d := d) (r := r) hd
    constructor
    · simp [List.takeWhile_cons, ha, h1]
    · simp [List.dropWhile_cons, ha, h2]

theorem matchClass_eval {w1 w2 w3 rest : List Char}
    (h1 : ∀ c ∈ w1, isWordChar c = true) (hn1 : w1 ≠ [])
    (h2 : ∀ c ∈ w2, isWordChar c = true) (hn2 : w2 ≠ [])
    (h3 : ∀ c ∈ w3, isWordChar c = true) (hn3 : w3 ≠ []) :
    matchClass (w1 ++ ':' :: (w2 ++ '(' :: '?' :: (w3 ++ ')' :: rest)))
      = some (w1, w2, '?' :: w3) := by
  obtain ⟨ht1, hd1⟩ := takeWhile_append_word w1 h1
    (d := ':') (r := w2 ++ '(' :: '?' :: (w3 ++ ')' :: rest)) (by decide)
  obtain ⟨ht2, hd2⟩ := takeWhile_append_word w2 h2
    (d := '(') (r := '?' :: (w3 ++ ')' :: rest)) (by decide)
  obtain ⟨ht3, hd3⟩ := takeWhile_append_word w3 h3 (d := ')') (r := rest) (by decide)
  simp only [matchClass, ht1, hd1, ht2, hd2, ht3, hd3, if_neg hn1, if_neg hn2, if_neg hn3]

theorem matchClass_none_comma {w1 w2 w3 r : List Char}
    (h1 : ∀ c ∈ w1, isWordChar c = true)
    (h2 : ∀ c ∈ w2, isWordChar c = true)
    (h3 : ∀ c ∈ w3, isWordChar c = true) :
    matchClass (w1 ++ ':' :: (w2 ++ '(' :: '?' :: (w3 ++ ',' :: r))) = none := by
  obtain ⟨ht1, hd1⟩ := takeWhile_append_word w1 h1
    (d := ':') (r := w2 ++ '(' :: '?' :: (w3 ++ ',' :: r)) (by decide)
  obtain ⟨ht2, hd2⟩ := takeWhile_append_word w2 h2
    (d := '(') (r := '?' :: (w3 ++ ',' :: r)) (by decide)
  obtain ⟨ht3, hd3⟩ := takeWhile_append_word w3 h3 (d := ',') (r := r) (by decide)
  by_cases hn1 : w1 = []
  · subst hn1
    simp [matchClass, List.takeWhile_cons, show isWordChar ':' = false from rfl]
  by_cases hn2 : w2 = []
  · subst hn2
    simp only [List.nil_append] at ht1 hd1 ht2 hd2 ⊢
    simp [matchClass, ht1, hd1, List.takeWhile_cons, show isWordChar '(' = false from rfl, hn1]
  by_cases hn3 : w3 = []
  · subst hn3
    simp only [List.nil_append] at ht1 hd1 ht2 hd2 ht3 hd3 ⊢
    simp [matchClass, ht1, hd1, ht2, hd2, List.takeWhile_cons,
      show isWordChar ',' = false from rfl, hn1, hn2]
  simp [matchClass, ht1, hd1, ht2, hd2, ht3, hd3, hn1, hn2, hn3]

theorem scanGo_eval :
    ∀ (a : List Char) (r : List Char),
      (∀ c ∈ a, (c == ')') = false ∧ (c == '\n') = false) →
      scanGo (a ++ ')' :: r) = some a := by
  intro a
  induction a with
  | nil => intro r _; rfl
  | cons c a' ih =>
    intro r h
    obtain ⟨hc1, hc2⟩ := h c (List.mem_cons_self c a')
    have h' : ∀ x ∈ a', (x == ')') = false ∧ (x == '\n') = false :=
      fun x hx => h x (List.mem_cons_of_mem c hx)
    rw [List.cons_append, scanGo]
    simp [hc1, hc2, ih r h']

theorem scanObj_eval {c : Char} {a r : List Char} (hc : (c == '\n') = false)
    (h : ∀ x ∈ a, (x == ')') = false ∧ (x == '\n') = false) :
    scanObj (c :: (a ++ ')' :: r)) = some (c :: a) := by
  rw [scanObj]
  simp [hc, scanGo_eval a r h]

theorem objCapture_space_q {c : Char} {a r : List Char}
    (hc0 : isSpaceChar c = false) (hc1 : (c == '\n') = false)
    (h : ∀ x ∈ a, (x == ')') = false ∧ (x == '\n') = false) :
    objCapture (' ' :: c :: (a ++ ')' :: r)) = some (c :: a) := by
  rw [objCapture]
  have h2 : objCapture (c :: (a ++ ')' :: r)) = some (c :: a) := by
    rw [objCapture]
    simp [hc0, scanObj_eval hc1 h]
  simp [show isSpaceChar ' ' = true from rfl, h2]

theorem matchProperty_eval {w1 w2 w3 : List Char} {c0 : Char} {mid rest : List Char}
    (h1 : ∀ c ∈ w1, isWordChar c = true) (hn1 : w1 ≠ [])
    (h2 : ∀ c ∈ w2, isWordChar c = true) (hn2 : w2 ≠ [])
    (h3 : ∀ c ∈ w3, isWordChar c = true) (hn3 : w3 ≠ [])
    (hc0 : isSpaceChar c0 = false) (hc1 : (c0 == '\n') = false)
    (hmid : ∀ x ∈ mid, (x == ')') = false ∧ (x == '\n') = false) :
    matchProperty (w1 ++ ':' :: (w2 ++ '(' :: '?' :: (w3 ++ ',' :: ' ' :: c0 :: (mid ++ ')' :: rest))))
      = some (w1, w2, '?' :: w3, c0 :: mid) := by
  obtain ⟨ht1, hd1⟩ := takeWhile_append_word w1 h1
    (d := ':') (r := w2 ++ '(' :: '?' :: (w3 ++ ',' :: ' ' :: c0 :: (mid ++ ')' :: rest)))
    (by decide)
  obtain ⟨ht2, hd2⟩ := takeWhile_append_word w2 h2
    (d := '(') (r := '?' :: (w3 ++ ',' :: ' ' :: c0 :: (mid ++ ')' :: rest))) (by decide)
  obtain ⟨ht3, hd3⟩ := takeWhile_append_word w3 h3
    (d := ',') (r := ' ' :: c0 :: (mid ++ ')' :: rest)) (by decide)
  simp only [matchProperty, ht1, hd1, ht2, hd2, ht3, hd3, if_neg hn1, if_neg hn2, if_neg hn3,
    objCapture_space_q hc0 hc1 hmid]
  rfl

theorem wordChar_facts {c : Char} (h : isWordChar c = true) :
    isSpaceChar c = false ∧ (c == ')') = false ∧ (c == '\n') = false := by
  refine ⟨?_, ?_, ?_⟩
  · cases hc : isSpaceChar c with
    | false => rfl
    | true =>
      exfalso
      have : ((c = ' ' ∨ c = '\t') ∨ c = '\x0d') ∨ c = '\n' := by
        simpa [isSpaceChar, Char.isWhitespace] using hc
      rcases this with ((h1 | h1) | h1) | h1 <;> subst h1 <;> exact absurd h (by decide)
  · cases hc : (c == ')') with
    | false => rfl
    | true =>
      have h1 : c = ')' := by simpa using hc
      subst h1
      exact absurd h (by decide)
  · cases hc : (c == '\n') with
    | false => rfl
    | true =>
      have h1 : c = '\n' := by simpa using hc
      subst h1
      exact absurd h (by decide)

theorem strip_cons_concat {c d : Char} {m : List Char}
    (hc : isSpaceChar c = false) (hd : isSpaceChar d = false) :
    strip (c :: (m ++ [d])) = c :: (m ++ [d]) := by
  unfold strip
  have h1 : (c :: (m ++ [d])).reverse = d :: (m.reverse ++ [c]) := by simp
  rw [List.dropWhile_cons, hc]
  simp only [Bool.false_eq_true, if_false, h1]
  rw [List.dropWhile_cons, hd]
  simp only [Bool.false_eq_true, if_false, ← h1, List.reverse_reverse]

theorem strip_word_tail {c : Char} {w : List Char} (hc : isSpaceChar c = false)
    (hw : ∀ x ∈ w, isSpaceChar x = false) (hne : w ≠ []) :
    strip (c :: w) = c :: w := by
  rcases List.eq_nil_or_concat w with h | ⟨m, d, hmd⟩
  · exact absurd h hne
  · subst hmd
    rw [List.concat_eq_append]
    exact strip_cons_concat hc (hw d (by simp))

theorem parse_atom_class_eval {w1 w2 w3 rest : List Char}
    (h1 : ∀ c ∈ w1, isWordChar c = true) (hn1 : w1 ≠ [])
    (h2 : ∀ c ∈ w2, isWordChar c = true) (hn2 : w2 ≠ [])
    (h3 : ∀ c ∈ w3, isWordChar c = true) (hn3 : w3 ≠ []) :
    parse_atom (w1 ++ ':' :: (w2 ++ '(' :: '?' :: (w3 ++ ')' :: rest)))
      = .ok (.classAtom w1 w2 ('?' :: w3)) := by
  unfold parse_atom
  rw [matchClass_eval h1 hn1 h2 hn2 h3 hn3]

theorem parse_atom_prop_eval {w1 w2 w3 : List Char} {c0 : Char} {mid rest : List Char}
    (h1 : ∀ c ∈ w1, isWordChar c = true) (hn1 : w1 ≠ [])
    (h2 : ∀ c ∈ w2, isWordChar c = true) (hn2 : w2 ≠ [])
    (h3 : ∀ c ∈ w3, isWordChar c = true) (hn3 : w3 ≠ [])
    (hc0 : isSpaceChar c0 = false) (hc1 : (c0 == '\n') = false)
    (hmid : ∀ x ∈ mid, (x == ')') = false ∧ (x == '\n') = false) :
    parse_atom (w1 ++ ':' :: (w2 ++ '(' :: '?' :: (w3 ++ ',' :: ' ' :: c0 :: (mid ++ ')' :: rest))))
      = .ok (.propertyAtom w1 w2 ('?' :: w3) (strip (c0 :: mid))) := by
  unfold parse_atom
  rw [matchClass_none_comma h1 h2 h3, matchProperty_eval h1 hn1 h2 hn2 h3 hn3 hc0 hc1 hmid]

/-- C10: atom classification is anchored only at the start of the atom string:
a string whose prefix has the class-atom form `prefix:Class(?var)` is accepted
as a ClassAtom whatever text follows the closing parenthesis, and a string
whose prefix has the property-atom form `prefix:prop(?var, ?var2)` is likewise
accepted as a PropertyAtom with the trailing text silently ignored. -/
theorem C10_start_anchor :
    (∀ w1 w2 w3 rest : List Char,
      (∀ c ∈ w1, isWordChar c = true) → w1 ≠ [] →
      (∀ c ∈ w2, isWordChar c = true) → w2 ≠ [] →
      (∀ c ∈ w3, isWordChar c = true) → w3 ≠ [] →
      parse_atom (w1 ++ ':' :: (w2 ++ '(' :: '?' :: (w3 ++ ')' :: rest)))
        = .ok (.classAtom w1 w2 ('?' :: w3))) ∧
    (∀ w1 w2 w3 o rest : List Char,
      (∀ c ∈ w1, isWordChar c = true) → w1 ≠ [] →
      (∀ c ∈ w2, isWordChar c = true) → w2 ≠ [] →
      (∀ c ∈ w3, isWordChar c = true) → w3 ≠ [] →
      (∀ c ∈ o, isWordChar c = true) → o ≠ [] →
      parse_atom (w1 ++ ':' :: (w2 ++ '(' :: '?' :: (w3 ++ ',' :: ' ' :: '?' :: (o ++ ')' :: rest))))
        = .ok (.propertyAtom w1 w2 ('?' :: w3) ('?' :: o))) := by
  constructor
  · intro w1 w2 w3 rest h1 hn1 h2 hn2 h3 hn3
    exact parse_atom_class_eval h1 hn1 h2 hn2 h3 hn3
  · intro w1 w2 w3 o rest h1 hn1 h2 hn2 h3 hn3 ho hno
    have hmid : ∀ x ∈ o, (x == ')') = false ∧ (x == '\n') = false :=
      fun x hx => (wordChar_facts (ho x hx)).2
    rw [parse_atom_prop_eval h1 hn1 h2 hn2 h3 hn3 (by decide) (by decide) hmid,
      strip_word_tail (by decide) (fun x hx => (wordChar_facts (ho x hx)).1) hno]

theorem C10_start_anchor_witness :
    parse_atom (lit "A" ++ ':' :: (lit "C" ++ '(' :: '?' :: (lit "x" ++ ')' :: lit " trailing junk")))
      = .ok (.classAtom (lit "A") (lit "C") ('?' :: lit "x")) ∧
    parse_atom (lit "A" ++ ':' :: (lit "p" ++ '(' :: '?' ::
        (lit "x" ++ ',' :: ' ' :: '?' :: (lit "y" ++ ')' :: lit " junk"))))
      = .ok (.propertyAtom (lit "A") (lit "p") ('?' :: lit "x") ('?' :: lit "y")) :=
  ⟨C10_start_anchor.1 (lit "A") (lit "C") (lit "x") (lit " trailing junk")
      (by decide) (by decide) (by decide) (by decide) (by decide) (by decide),
   C10_start_anchor.2 (lit "A") (lit "p") (lit "x") (lit "y") (lit " junk")
      (by decide) (by decide) (by decide) (by decide) (by decide) (by decide)
      (by decide) (by decide)⟩

/-- C3 fails on the code: the three-argument built-in-style atom
`A:f(?x, ?y, ?z)` is not rejected; the lazy object group of the property
pattern captures `?y, ?z` and the atom is accepted as a PropertyAtom. -/
theorem C3_builtin_counterexample :
    parse_atom (lit "A:f(?x, ?y, ?z)")
      = .ok (.propertyAtom (lit "A") (lit "f") (lit "?x") (lit "?y, ?z")) ∧
    parse_atom (lit "A:f(?x, ?y, ?z)") ≠ .error .unparsableAtom := by
  constructor
  · decide
  · decide

/-- C3 (amended): an atom with three comma-separated `?`-variable arguments
`prefix:name(?v1, ?v2, ?v3)` is not rejected: it matches the property pattern,
whose object capture takes everything from after the first comma (whitespace
trimmed) up to the first closing parenthesis, giving the object `?v2, ?v3`. -/
theorem C3_builtin_amended : ∀ w1 w2 v1 v2 v3 : List Char,
    (∀ c ∈ w1, isWordChar c = true) → w1 ≠ [] →
    (∀ c ∈ w2, isWordChar c = true) → w2 ≠ [] →
    (∀ c ∈ v1, isWordChar c = true) → v1 ≠ [] →
    (∀ c ∈ v2, isWordChar c = true) → v2 ≠ [] →
    (∀ c ∈ v3, isWordChar c = true) → v3 ≠ [] →
    parse_atom (w1 ++ ':' :: (w2 ++ '(' :: '?' ::
        (v1 ++ ',' :: ' ' :: '?' :: ((v2 ++ ',' :: ' ' :: '?' :: v3) ++ [')']))))
      = .ok (.propertyAtom w1 w2 ('?' :: v1) ('?' :: (v2 ++ ',' :: ' ' :: '?' :: v3))) := by
  intro w1 w2 v1 v2 v3 h1 hn1 h2 hn2 hv1 hnv1 hv2 hnv2 hv3 hnv3
  have hmid : ∀ x ∈ v2 ++ ',' :: ' ' :: '?' :: v3, (x == ')') = false ∧ (x == '\n') = false := by
    intro x hx
    rcases List.mem_append.mp hx with hx | hx
    · exact (wordChar_facts (hv2 x hx)).2
    · rcases List.mem_cons.mp hx with hx | hx
      · subst hx; exact ⟨by decide, by decide⟩
      rcases List.mem_cons.mp hx with hx | hx
      · subst hx; exact ⟨by decide, by decide⟩
      rcases List.mem_cons.mp hx with hx | hx
      · subst hx; exact ⟨by decide, by decide⟩
      · exact (wordChar_facts (hv3 x hx)).2
  have heval := @parse_atom_prop_eval w1 w2 v1 '?' (v2 ++ ',' :: ' ' :: '?' :: v3) []
    h1 hn1 h2 hn2 hv1 hnv1 (by decide) (by decide) hmid
  rw [show (v2 ++ ',' :: ' ' :: '?' :: v3) ++ ')' :: ([] : List Char)
        = (v2 ++ ',' :: ' ' :: '?' :: v3) ++ [')'] from rfl] at heval
  rw [heval]
  obtain ⟨m3, d, hv3d⟩ := (List.eq_nil_or_concat v3).resolve_left hnv3
  subst hv3d
  rw [List.concat_eq_append,
    show v2 ++ ',' :: ' ' :: '?' :: (m3 ++ [d]) = (v2 ++ ',' :: ' ' :: '?' :: m3) ++ [d] by
      simp]
  rw [strip_cons_concat (by decide) (wordChar_facts (hv3 d (by simp))).1]

/-- C4 fails on the code: the object capture of the property pattern is lazy,
not greedy: it stops at the first closing parenthesis, so the object captured
from `A:p(?x, foo(bar))` is `foo(bar` (with the nested opening parenthesis but
without the closing one), not `foo(bar)`. -/
theorem C4_greedy_counterexample :
    parse_atom (lit "A:p(?x, foo(bar))")
      = .ok (.propertyAtom (lit "A") (lit "p") (lit "?x") (lit "foo(bar")) ∧
    Atom.propertyAtom (lit "A") (lit "p") (lit "?x") (lit "foo(bar")
      ≠ Atom.propertyAtom (lit "A") (lit "p") (lit "?x") (lit "foo(bar)") := by
  constructor
  · decide
  · decide

/-- C4 (amended): the object capture is lazy to the leftmost closing
parenthesis: for a property atom whose object contains an opening parenthesis,
the nested opening parenthesis is accepted as part of the captured object, but
the capture ends at the first `)`, whose content onward is ignored (the match
is not end-anchored); the object of `A:p(?x, foo(bar))` is `foo(bar`. -/
theorem C4_object_capture_amended : ∀ (w1 w2 w3 : List Char) (c0 : Char) (nm nest rest : List Char),
    (∀ c ∈ w1, isWordChar c = true) → w1 ≠ [] →
    (∀ c ∈ w2, isWordChar c = true) → w2 ≠ [] →
    (∀ c ∈ w3, isWordChar c = true) → w3 ≠ [] →
    isWordChar c0 = true →
    (∀ c ∈ nm, isWordChar c = true) →
    (∀ c ∈ nest, isWordChar c = true) → nest ≠ [] →
    parse_atom (w1 ++ ':' :: (w2 ++ '(' :: '?' ::
        (w3 ++ ',' :: ' ' :: c0 :: (nm ++ '(' :: (nest ++ ')' :: rest)))))
      = .ok (.propertyAtom w1 w2 ('?' :: w3) (c0 :: (nm ++ '(' :: nest))) := by
  intro w1 w2 w3 c0 nm nest rest h1 hn1 h2 hn2 h3 hn3 hc0 hnm hnest hnnest
  have hmid : ∀ x ∈ nm ++ '(' :: nest, (x == ')') = false ∧ (x == '\n') = false := by
    intro x hx
    rcases List.mem_append.mp hx with hx | hx
    · exact (wordChar_facts (hnm x hx)).2
    · rcases List.mem_cons.mp hx with hx | hx
      · subst hx; exact ⟨by decide, by decide⟩
      · exact (wordChar_facts (hnest x hx)).2
  have heval := @parse_atom_prop_eval w1 w2 w3 c0 (nm ++ '(' :: nest) rest
    h1 hn1 h2 hn2 h3 hn3 (wordChar_facts hc0).1 (wordChar_facts hc0).2.2 hmid
  rw [show (nm ++ '(' :: nest) ++ ')' :: rest = nm ++ '(' :: (nest ++ ')' :: rest) by simp]
    at heval
  rw [heval]
  obtain ⟨m3, d, hd⟩ := (List.eq_nil_or_concat nest).resolve_left hnnest
  subst hd
  rw [List.concat_eq_append,
    show nm ++ '(' :: (m3 ++ [d]) = (nm ++ '(' :: m3) ++ [d] by simp]
  rw [strip_cons_concat (wordChar_facts hc0).1 (wordChar_facts (hnest d (by simp))).1]

theorem C3_builtin_amended_witness :
    parse_atom (lit "A" ++ ':' :: (lit "f" ++ '(' :: '?' ::
        (lit "x" ++ ',' :: ' ' :: '?' :: ((lit "y" ++ ',' :: ' ' :: '?' :: lit "z") ++ [')']))))
      = .ok (.propertyAtom (lit "A") (lit "f") ('?' :: lit "x")
          ('?' :: (lit "y" ++ ',' :: ' ' :: '?' :: lit "z"))) :=
  C3_builtin_amended (lit "A") (lit "f") (lit "x") (lit "y") (lit "z")
    (by decide) (by decide) (by decide) (by decide) (by decide)
    (by decide) (by decide) (by decide) (by decide) (by decide)

theorem C4_object_capture_amended_witness :
    parse_atom (lit "A" ++ ':' :: (lit "p" ++ '(' :: '?' ::
        (lit "x" ++ ',' :: ' ' :: 'f' :: (lit "oo" ++ '(' :: (lit "bar" ++ ')' :: [')'])))))
      = .ok (.propertyAtom (lit "A") (lit "p") ('?' :: lit "x")
          ('f' :: (lit "oo" ++ '(' :: lit "bar"))) :=
  C4_object_capture_amended (lit "A") (lit "p") (lit "x") 'f' (lit "oo") (lit "bar") [')']
    (by decide) (by decide) (by decide) (by decide) (by decide) (by decide)
    (by decide) (by decide) (by decide) (by decide)

theorem builtin_shape_eq : lit "A" ++ ':' :: (lit "f" ++ '(' :: '?' ::
    (lit "x" ++ ',' :: ' ' :: '?' :: ((lit "y" ++ ',' :: ' ' :: '?' :: lit "z") ++ [')'])))
    = lit "A:f(?x, ?y, ?z)" := by decide

theorem nested_shape_eq : lit "A" ++ ':' :: (lit "p" ++ '(' :: '?' ::
    (lit "x" ++ ',' :: ' ' :: 'f' :: (lit "oo" ++ '(' :: (lit "bar" ++ ')' :: [')']))))
    = lit "A:p(?x, foo(bar))" := by decide

/-! ## Sorting and set lemmas -/

theorem lexLe_total : ∀ a b : List Char, lexLe a b = true ∨ lexLe b a = true
  | [], _ => Or.inl rfl
  | _ :: _, [] => Or.inr rfl
  | x :: xs, y :: ys => by
    simp only [lexLe]
    by_cases h : x.toNat = y.toNat
    · rw [if_pos h, if_pos h.symm]
      exact lexLe_total xs ys
    · rw [if_neg h, if_neg (Ne.symm h)]
      rcases Nat.lt_or_ge x.toNat y.toNat with hlt | hge
      · exact Or.inl (by simpa using hlt)
      · exact Or.inr (by simpa using Nat.lt_of_le_of_ne hge (Ne.symm h))

theorem lexLe_trans : ∀ a b c : List Char,
    lexLe a b = true → lexLe b c = true → lexLe a c = true
  | [], _, _, _, _ => rfl
  | _ :: _, [], _, h, _ => by simp [lexLe] at h
  | _ :: _, _ :: _, [], _, h2 => by simp [lexLe] at h2
  | x :: xs, y :: ys, z :: zs, h1, h2 => by
    simp only [lexLe] at h1 h2 ⊢
    by_cases hxy : x.toNat = y.toNat <;> by_cases hyz : y.toNat = z.toNat
    · rw [if_pos (hxy.trans hyz)]
      rw [if_pos hxy] at h1
      rw [if_pos hyz] at h2
      exact lexLe_trans xs ys zs h1 h2
    · rw [if_neg (hxy ▸ hyz), decide_eq_true_eq]
      rw [if_neg hyz, decide_eq_true_eq] at h2
      omega
    · rw [if_neg (fun he => hxy (hyz ▸ he)), decide_eq_true_eq]
      rw [if_neg hxy, decide_eq_true_eq] at h1
      omega
    · rw [if_neg hxy, decide_eq_true_eq] at h1
      rw [if_neg hyz, decide_eq_true_eq] at h2
      have hxz : x.toNat < z.toNat := Nat.lt_trans h1 h2
      rw [if_neg (Nat.ne_of_lt hxz), decide_eq_true_eq]
      exact hxz

instance : IsTotal (List Char) lexLeP := ⟨fun a b => lexLe_total a b⟩

instance : IsTrans (List Char) lexLeP := ⟨fun a b c => lexLe_trans a b c⟩

theorem pySorted_sorted (l : List (List Char)) : List.Sorted lexLeP (pySorted l) :=
  List.sorted_insertionSort lexLeP l

theorem pySorted_perm (l : List (List Char)) : List.Perm (pySorted l) l :=
  List.perm_insertionSort lexLeP l

theorem mem_pySorted {x : List Char} {l : List (List Char)} : x ∈ pySorted l ↔ x ∈ l :=
  (pySorted_perm l).mem_iff

theorem nodup_pySorted {l : List (List Char)} (h : l.Nodup) : (pySorted l).Nodup :=
  ((pySorted_perm l).nodup_iff).mpr h

theorem mem_setAdd {x a : List Char} {l : List (List Char)} :
    x ∈ setAdd l a ↔ x ∈ l ∨ x = a := by
  unfold setAdd
  split
  · constructor
    · exact Or.inl
    · rintro (h | h)
      · exact h
      · subst h; assumption
  · simp

theorem nodup_setAdd {a : List Char} {l : List (List Char)} (h : l.Nodup) :
    (setAdd l a).Nodup := by
  unfold setAdd
  split
  · exact h
  · simp_all [List.nodup_append]

theorem mem_foldl_setAdd :
    ∀ (l acc : List (List Char)) (x : List Char),
      x ∈ l.foldl setAdd acc ↔ x ∈ acc ∨ x ∈ l := by
  intro l
  induction l with
  | nil => simp
  | cons a l ih =>
    intro acc x
    rw [List.foldl_cons, ih, mem_setAdd, List.mem_cons]
    tauto

theorem nodup_foldl_setAdd :
    ∀ (l acc : List (List Char)), acc.Nodup → (l.foldl setAdd acc).Nodup := by
  intro l
  induction l with
  | nil => intro acc h; exact h
  | cons a l ih => intro acc h; exact ih _ (nodup_setAdd h)

theorem mem_pySet {x : List Char} {l : List (List Char)} : x ∈ pySet l ↔ x ∈ l := by
  rw [pySet, mem_foldl_setAdd]
  simp

theorem nodup_pySet (l : List (List Char)) : (pySet l).Nodup :=
  nodup_foldl_setAdd l [] (by simp)

/-! ## Model-building lemmas -/

theorem buildModel_properties :
    ∀ (ts : List (Atom × RulePart)) (st : ConvState),
      (buildModel ts st).properties = st.properties ++ ts.filterMap propProj := by
  intro ts
  induction ts with
  | nil => intro st; simp [buildModel]
  | cons t ts ih =>
    intro st
    obtain ⟨a, part⟩ := t
    show (buildModel ts (processAtom st (a, part))).properties = _
    rw [ih]
    cases a with
    | classAtom pfx cn v =>
      simp [processAtom, propProj, List.filterMap_cons]
    | propertyAtom pfx pn s o =>
      simp [processAtom, propProj, List.filterMap_cons]

theorem lookupD_classesAppend_eq :
    ∀ (cs : ClassMap) (v : List Char) (e : List Char × RulePart),
      lookupD (classesAppend cs v e) v = lookupD cs v ++ [e] := by
  intro cs
  induction cs with
  | nil => intro v e; simp [classesAppend, lookupD]
  | cons kv cs ih =>
    intro v e
    obtain ⟨k, es⟩ := kv
    by_cases hk : k = v
    · subst hk
      simp [classesAppend, lookupD]
    · simp [classesAppend, lookupD, hk, ih]

theorem lookupD_classesAppend_ne :
    ∀ (cs : ClassMap) (w v : List Char) (e : List Char × RulePart), w ≠ v →
      lookupD (classesAppend cs w e) v = lookupD cs v := by
  intro cs
  induction cs with
  | nil => intro w v e hw; simp [classesAppend, lookupD, hw]
  | cons kv cs ih =>
    intro w v e hw
    obtain ⟨k, es⟩ := kv
    by_cases hk : k = w
    · subst hk
      simp [classesAppend, lookupD, hw]
    · by_cases hv : k = v
      · subst hv
        simp [classesAppend, lookupD, hk]
      · simp [classesAppend, lookupD, hk, hv, ih _ _ _ hw]

theorem buildModel_lookupD :
    ∀ (ts : List (Atom × RulePart)) (st : ConvState) (v : List Char),
      lookupD (buildModel ts st).classes v
        = lookupD st.classes v ++ ts.filterMap (classProj v) := by
  intro ts
  induction ts with
  | nil => intro st v; simp [buildModel]
  | cons t ts ih =>
    intro st v
    obtain ⟨a, part⟩ := t
    show lookupD (buildModel ts (processAtom st (a, part))).classes v = _
    rw [ih]
    cases a with
    | classAtom pfx cn w =>
      by_cases hw : w = v
      · subst hw
        simp [processAtom, classProj, List.filterMap_cons, lookupD_classesAppend_eq]
      · simp [processAtom, classProj, List.filterMap_cons, hw,
          lookupD_classesAppend_ne _ _ _ _ hw]
    | propertyAtom pfx pn s o =>
      simp [processAtom, classProj, List.filterMap_cons]

theorem buildModel_vars_mem :
    ∀ (ts : List (Atom × RulePart)) (st : ConvState) (x : List Char),
      x ∈ (buildModel ts st).vars ↔ x ∈ st.vars ∨ x ∈ ts.flatMap varMentions := by
  intro ts
  induction ts with
  | nil => intro st x; simp [buildModel]
  | cons t ts ih =>
    intro st x
    obtain ⟨a, part⟩ := t
    show x ∈ (buildModel ts (processAtom st (a, part))).vars ↔ _
    rw [ih]
    cases a with
    | classAtom pfx cn v =>
      simp only [processAtom, mem_setAdd, List.flatMap_cons, varMentions, List.mem_append,
        List.mem_singleton]
      tauto
    | propertyAtom pfx pn s o =>
      by_cases ho : startsWithQ o
      · simp only [processAtom, ho, if_true, mem_setAdd, List.flatMap_cons, varMentions,
          List.mem_append, List.mem_cons, List.mem_singleton, if_pos]
        tauto
      · simp only [processAtom, ho, mem_setAdd, List.flatMap_cons, varMentions,
          List.mem_append, List.mem_cons, Bool.false_eq_true, if_false]
        simp only [List.not_mem_nil, or_false]
        tauto

theorem buildModel_vars_nodup :
    ∀ (ts : List (Atom × RulePart)) (st : ConvState), st.vars.Nodup →
      (buildModel ts st).vars.Nodup := by
  intro ts
  induction ts with
  | nil => intro st h; exact h
  | cons t ts ih =>
    intro st h
    obtain ⟨a, part⟩ := t
    refine ih _ ?_
    cases a with
    | classAtom pfx cn v => exact nodup_setAdd h
    | propertyAtom pfx pn s o =>
      show (if startsWithQ o then setAdd (setAdd st.vars s) o else setAdd st.vars s).Nodup
      split
      · exact nodup_setAdd (nodup_setAdd h)
      · exact nodup_setAdd h

/-! ## Counting the rdf:type edges -/

theorem sum_map_add_nat :
    ∀ (vs : List (List Char)) (f g : List Char → Nat),
      (vs.map (fun v => f v + g v)).sum = (vs.map f).sum + (vs.map g).sum := by
  intro vs f g
  induction vs with
  | nil => simp
  | cons v vs ih => simp [ih]; omega

theorem sum_indicator_zero :
    ∀ (vs : List (List Char)) (w : List Char), w ∉ vs →
      (vs.map (fun v => if w = v then 1 else 0)).sum = 0 := by
  intro vs
  induction vs with
  | nil => simp
  | cons v vs ih =>
    intro w hw
    rw [List.map_cons, List.sum_cons,
      if_neg (fun h => hw (by rw [h]; exact List.mem_cons_self v vs)),
      ih w (fun h => hw (List.mem_cons_of_mem v h))]

theorem sum_indicator_one :
    ∀ (vs : List (List Char)) (w : List Char), vs.Nodup → w ∈ vs →
      (vs.map (fun v => if w = v then 1 else 0)).sum = 1 := by
  intro vs
  induction vs with
  | nil => intro w _ h; simp at h
  | cons v vs ih =>
    intro w hnd hw
    rw [List.map_cons, List.sum_cons]
    rcases List.mem_cons.mp hw with h | h
    · subst h
      rw [if_pos rfl, sum_indicator_zero vs w (List.nodup_cons.mp hnd).1]
    · have hne : w ≠ v := by
        intro he
        subst he
        exact (List.nodup_cons.mp hnd).1 h
      rw [if_neg hne, ih w (List.nodup_cons.mp hnd).2 h]

theorem filterMap_classProj_length_cons (t : Atom × RulePart) (ts : List (Atom × RulePart))
    (v : List Char) :
    ((t :: ts).filterMap (classProj v)).length
      = (match t.1 with
          | .classAtom _ _ w => if w = v then 1 else 0
          | .propertyAtom _ _ _ _ => 0) + (ts.filterMap (classProj v)).length := by
  obtain ⟨a, part⟩ := t
  cases a with
  | classAtom pfx cn w =>
    by_cases hw : w = v
    · subst hw
      simp [List.filterMap_cons, classProj]
      omega
    · simp [List.filterMap_cons, classProj, hw]
  | propertyAtom pfx pn s o => simp [List.filterMap_cons, classProj]

theorem sum_filterMap_classProj :
    ∀ (ts : List (Atom × RulePart)) (vs : List (List Char)), vs.Nodup →
      (∀ p cn w part, (Atom.classAtom p cn w, part) ∈ ts → w ∈ vs) →
      (vs.map (fun v => (ts.filterMap (classProj v)).length)).sum
        = ts.countP (fun t => isClassAtom t.1) := by
  intro ts
  induction ts with
  | nil => intro vs _ _; simp
  | cons t ts ih =>
    intro vs hnd hcov
    have hcov' : ∀ p cn w part, (Atom.classAtom p cn w, part) ∈ ts → w ∈ vs :=
      fun p cn w part h => hcov p cn w part (List.mem_cons_of_mem t h)
    have hrec := ih vs hnd hcov'
    obtain ⟨a, part⟩ := t
    cases a with
    | classAtom pfx cn w =>
      have hw : w ∈ vs := hcov pfx cn w part (List.mem_cons_self _ _)
      have h1 : ∀ v, (((Atom.classAtom pfx cn w, part) :: ts).filterMap (classProj v)).length
          = (if w = v then 1 else 0) + (ts.filterMap (classProj v)).length := by
        intro v
        exact filterMap_classProj_length_cons (Atom.classAtom pfx cn w, part) ts v
      calc (vs.map (fun v => (((Atom.classAtom pfx cn w, part) :: ts).filterMap
              (classProj v)).length)).sum
          = (vs.map (fun v => (if w = v then 1 else 0)
              + (ts.filterMap (classProj v)).length)).sum :=
            congrArg List.sum (List.map_congr_left (fun v _ => h1 v))
        _ = (vs.map (fun v => if w = v then 1 else 0)).sum
              + (vs.map (fun v => (ts.filterMap (classProj v)).length)).sum :=
            sum_map_add_nat vs _ _
        _ = 1 + ts.countP (fun t => isClassAtom t.1) := by
            rw [sum_indicator_one vs w hnd hw, hrec]
        _ = ((Atom.classAtom pfx cn w, part) :: ts).countP (fun t => isClassAtom t.1) := by
            rw [List.countP_cons,
              show (if isClassAtom (Atom.classAtom pfx cn w, part).1 = true then 1 else 0)
                = 1 from rfl]
            omega
    | propertyAtom pfx pn s o =>
      have h1 : ∀ v, (((Atom.propertyAtom pfx pn s o, part) :: ts).filterMap
          (classProj v)).length = (ts.filterMap (classProj v)).length := by
        intro v
        simpa using filterMap_classProj_length_cons (Atom.propertyAtom pfx pn s o, part) ts v
      calc (vs.map (fun v => (((Atom.propertyAtom pfx pn s o, part) :: ts).filterMap
              (classProj v)).length)).sum
          = (vs.map (fun v => (ts.filterMap (classProj v)).length)).sum :=
            congrArg List.sum (List.map_congr_left (fun v _ => h1 v))
        _ = ts.countP (fun t => isClassAtom t.1) := hrec
        _ = _ := by
            rw [List.countP_cons,
              show (if isClassAtom (Atom.propertyAtom pfx pn s o, part).1 = true then 1 else 0)
                = 0 from rfl]
            omega

theorem filterMap_propProj_length :
    ∀ ts : List (Atom × RulePart),
      (ts.filterMap propProj).length = ts.countP (fun t => isPropAtom t.1) := by
  intro ts
  induction ts with
  | nil => rfl
  | cons t ts ih =>
    obtain ⟨a, part⟩ := t
    cases a with
    | classAtom pfx cn w =>
      rw [List.countP_cons,
        show (if isPropAtom (Atom.classAtom pfx cn w, part).1 = true then 1 else 0)
          = 0 from rfl]
      simpa [List.filterMap_cons, propProj] using ih
    | propertyAtom pfx pn s o =>
      rw [List.countP_cons,
        show (if isPropAtom (Atom.propertyAtom pfx pn s o, part).1 = true then 1 else 0)
          = 1 from rfl]
      simp [List.filterMap_cons, propProj, ih]

/-! ## Shapes of successfully parsed atoms -/

theorem parseAtomsTagged_mem {part : RulePart} :
    ∀ {l : List (List Char)} {ts : List (Atom × RulePart)},
      parseAtomsTagged part l = .ok ts →
      ∀ t ∈ ts, t.2 = part ∧ ∃ a ∈ l, parse_atom a = .ok t.1 := by
  intro l
  induction l with
  | nil =>
    intro ts h t ht
    have h2 : (Except.ok [] : Except SWRLError (List (Atom × RulePart))) = .ok ts := h
    injection h2 with h2
    subst h2
    simp at ht
  | cons a rest ih =>
    intro ts h t ht
    simp only [parseAtomsTagged] at h
    cases hpa : parse_atom a with
    | error e1 =>
      rw [hpa] at h
      exact Except.noConfusion h
    | ok pa =>
      rw [hpa] at h
      cases hrest : parseAtomsTagged part rest with
      | error e2 =>
        rw [hrest] at h
        exact Except.noConfusion h
      | ok ta =>
        rw [hrest] at h
        have h2 : (Except.ok ((pa, part) :: ta) :
            Except SWRLError (List (Atom × RulePart))) = .ok ts := h
        injection h2 with h2
        subst h2
        rcases List.mem_cons.mp ht with h3 | h3
        · subst h3
          exact ⟨rfl, a, List.mem_cons_self a rest, hpa⟩
        · obtain ⟨hp, b, hb, hpb⟩ := ih hrest t h3
          exact ⟨hp, b, List.mem_cons_of_mem a hb, hpb⟩

theorem matchProperty_groups {a p n s o : List Char}
    (h : matchProperty a = some (p, n, s, o)) :
    (∀ c ∈ p, isWordChar c = true) ∧ (∀ c ∈ n, isWordChar c = true) := by
  simp only [matchProperty] at h
  split at h
  · exact Option.noConfusion h
  · split at h
    · rename_i r2 heq
      split at h
      · exact Option.noConfusion h
      · split at h
        · rename_i r4 heq2
          split at h
          · exact Option.noConfusion h
          · split at h
            · rename_i r6 heq3
              rcases ho : objCapture r6 with _ | o'
              · rw [ho] at h
                exact Option.noConfusion h
              · rw [ho] at h
                simp only [Option.map_some'] at h
                injection h with h
                simp only [Prod.mk.injEq] at h
                obtain ⟨h1, h2, h3, h4⟩ := h
                constructor
                · intro c hc
                  rw [← h1] at hc
                  exact List.mem_takeWhile_imp hc
                · intro c hc
                  rw [← h2] at hc
                  exact List.mem_takeWhile_imp hc
            · exact Option.noConfusion h
        · exact Option.noConfusion h
    · exact Option.noConfusion h

theorem parse_atom_prop_shape {a p n s o : List Char}
    (h : parse_atom a = .ok (.propertyAtom p n s o)) :
    (∀ c ∈ p, isWordChar c = true) ∧ (∀ c ∈ n, isWordChar c = true) := by
  unfold parse_atom at h
  cases hc : matchClass a with
  | some g =>
    obtain ⟨pfx, cn, v⟩ := g
    rw [hc] at h
    simp only [] at h
    have h2 : (Except.ok (Atom.classAtom pfx cn v) : Except SWRLError Atom)
        = .ok (.propertyAtom p n s o) := h
    injection h2 with h2
    exact Atom.noConfusion h2
  | none =>
    rw [hc] at h
    cases hp : matchProperty a with
    | some g =>
      obtain ⟨pfx, pn, su, ob⟩ := g
      rw [hp] at h
      have h2 : (Except.ok (Atom.propertyAtom pfx pn su (strip ob)) : Except SWRLError Atom)
          = .ok (.propertyAtom p n s o) := h
      injection h2 with h2
      injection h2 with e1 e2 e3 e4
      subst e1
      subst e2
      exact matchProperty_groups hp
    | none =>
      rw [hp] at h
      exact Except.noConfusion h

/-- Every predicate in a model built from successfully parsed atoms consists
of word characters around one colon (`prefix:propertyName`, line 101). -/
theorem buildModel_predicate_chars {ts : List (Atom × RulePart)}
    (hts : ∀ t ∈ ts, ∃ a : List Char, parse_atom a = .ok t.1) :
    ∀ pr ∈ (buildModel ts initState).properties,
      ∀ c ∈ pr.predicate, isWordChar c = true ∨ c = ':' := by
  intro pr hpr c hc
  rw [buildModel_properties] at hpr
  simp only [initState, List.nil_append] at hpr
  obtain ⟨t, ht, hproj⟩ := List.mem_filterMap.mp hpr
  obtain ⟨a, ha⟩ := hts t ht
  obtain ⟨at1, part⟩ := t
  cases at1 with
  | classAtom pfx cn v => exact absurd hproj (by simp [propProj])
  | propertyAtom pfx pn s o =>
    have hpred : pr.predicate = pfx ++ ':' :: pn := by
      simp only [propProj, Option.some.injEq] at hproj
      rw [← hproj]
    obtain ⟨hw1, hw2⟩ := parse_atom_prop_shape ha
    rw [hpred] at hc
    rcases List.mem_append.mp hc with hc1 | hc1
    · exact Or.inl (hw1 c hc1)
    · rcases List.mem_cons.mp hc1 with hc2 | hc2
      · exact Or.inr hc2
      · exact Or.inl (hw2 c hc2)

/-! ## Telling the DOT line shapes apart -/

theorem tailK_append_right (k : Nat) (a b : List Char) (h : k ≤ b.length) :
    tailK k (a ++ b) = tailK k b := by
  unfold tailK
  rw [List.reverse_append, List.take_append_of_le_length (by simpa using h)]

theorem tail_classNodeLine (k : Nat) (c : List Char)
    (h : k ≤ (lit "\" [shape=ellipse, fillcolor=lightgreen, style=filled];").length) :
    tailK k (classNodeLine c)
      = tailK k (lit "\" [shape=ellipse, fillcolor=lightgreen, style=filled];") :=
  tailK_append_right k _ _ h

theorem tail_litNodeLine (k : Nat) (l : List Char)
    (h : k ≤ (lit "\" [shape=box, style=filled, fillcolor=lightyellow];").length) :
    tailK k (litNodeLine l)
      = tailK k (lit "\" [shape=box, style=filled, fillcolor=lightyellow];") :=
  tailK_append_right k _ _ h

theorem tail_varNodeLine (k : Nat) (v : List Char)
    (h : k ≤ (lit "\", fillcolor=lightblue, style=\"rounded,filled\"];").length) :
    tailK k (varNodeLine v)
      = tailK k (lit "\", fillcolor=lightblue, style=\"rounded,filled\"];") :=
  tailK_append_right k _ _ h

theorem tail_rdfEdgeLine_ante (k : Nat) (cls v : List Char)
    (h : k ≤ (lit "\" [label=\"rdf:type\", style=dashed];").length) :
    tailK k (rdfEdgeLine cls v .antecedent)
      = tailK k (lit "\" [label=\"rdf:type\", style=dashed];") :=
  tailK_append_right k _ _ h

theorem tail_rdfEdgeLine_cons (k : Nat) (cls v : List Char)
    (h : k ≤ (lit "\" [label=\"rdf:type\", color=blue, penwidth=2, style=dashed];").length) :
    tailK k (rdfEdgeLine cls v .consequent)
      = tailK k (lit "\" [label=\"rdf:type\", color=blue, penwidth=2, style=dashed];") :=
  tailK_append_right k _ _ h

theorem tail_propEdgeLine_cons (k : Nat) (s p o : List Char)
    (h : k ≤ (lit "\", color=blue, penwidth=2];").length) :
    tailK k (propEdgeLine s p o .consequent)
      = tailK k (lit "\", color=blue, penwidth=2];") :=
  tailK_append_right k _ _ h

theorem tail_propEdgeLine_ante (k : Nat) (s p o : List Char)
    (h : k ≤ (lit "\"];").length) :
    tailK k (propEdgeLine s p o .antecedent) = tailK k (lit "\"];") :=
  tailK_append_right k _ _ h

theorem quoteSeg_varNodeLine (v : List Char) : quoteSeg (varNodeLine v) = lit "dellif,dednuor" := by
  unfold quoteSeg varNodeLine
  rw [List.reverse_append,
    show (lit "\", fillcolor=lightblue, style=\"rounded,filled\"];").reverse
      = lit ";]\"" ++ (lit "dellif,dednuor" ++ '"' :: lit "=elyts ,eulbthgil=rolocllif ,\"")
      from by decide,
    List.append_assoc, List.drop_append_of_le_length (by decide),
    show (lit ";]\"").drop 3 = [] from rfl, List.nil_append, List.append_assoc,
    List.cons_append]
  exact (takeWhile_append_word (lit "dellif,dednuor") (by decide) (by decide)).1

theorem quoteSeg_propEdgeLine_ante (s p o : List Char)
    (hp : ∀ c ∈ p, isWordChar c = true ∨ c = ':') :
    quoteSeg (propEdgeLine s p o .antecedent) = p.reverse := by
  unfold quoteSeg
  show ((((((lit "    \"" ++ s ++ lit "\" -> \"" ++ o ++ lit "\" [label=\"" ++ p)
    ++ lit "\"];")).reverse).drop 3).takeWhile (fun c => !(c == '"'))) = p.reverse
  rw [List.reverse_append,
    show (lit "\"];").reverse = lit ";]\"" from by decide,
    List.drop_append_of_le_length (by decide),
    show (lit ";]\"").drop 3 = [] from rfl, List.nil_append,
    List.reverse_append, List.reverse_append,
    show (lit "\" [label=\"").reverse = '"' :: lit "=lebal[ \"" from by decide,
    List.cons_append]
  have hrev : ∀ c ∈ p.reverse, (!(c == '"')) = true := by
    intro c hc
    rcases hp c (List.mem_reverse.mp hc) with hw | hw
    · simp only [Bool.not_eq_true']
      rw [beq_eq_false_iff_ne]
      intro he
      subst he
      exact absurd hw (by decide)
    · subst hw
      decide
  exact (takeWhile_append_word p.reverse hrev (by decide)).1

theorem varNode_ne_propAnte {v s p o : List Char}
    (hp : ∀ c ∈ p, isWordChar c = true ∨ c = ':') :
    varNodeLine v ≠ propEdgeLine s p o .antecedent := by
  intro he
  have h := congrArg quoteSeg he
  rw [quoteSeg_varNodeLine, quoteSeg_propEdgeLine_ante s p o hp] at h
  have hcomma : ',' ∈ p := by
    have h2 : ',' ∈ p.reverse := by
      rw [← h]
      decide
    exact List.mem_reverse.mp h2
  rcases hp ',' hcomma with hw | hw
  · exact absurd hw (by decide)
  · exact absurd hw (by decide)

theorem ne_of_tailK {k : Nat} {x y : List Char} (h : tailK k x ≠ tailK k y) : x ≠ y :=
  fun he => h (he ▸ rfl)

theorem classNodeLine_inj {c c' : List Char} (h : classNodeLine c = classNodeLine c') :
    c = c' := by
  unfold classNodeLine at h
  have h2 := List.append_cancel_right h
  exact List.append_cancel_left h2

theorem litNodeLine_inj {l l' : List Char} (h : litNodeLine l = litNodeLine l') : l = l' := by
  unfold litNodeLine at h
  have h2 := List.append_cancel_right h
  exact List.append_cancel_left h2

theorem varNodeLine_inj {v v' : List Char} (h : varNodeLine v = varNodeLine v') : v = v' := by
  unfold varNodeLine at h
  have hlen : v.length = v'.length := by
    have := congrArg List.length h
    simp only [List.length_append] at this
    omega
  have h2 := List.append_cancel_right h
  have h3 := List.append_cancel_left
    (show lit "    \"" ++ (v ++ (lit "\" [label=\"" ++ v))
        = lit "    \"" ++ (v' ++ (lit "\" [label=\"" ++ v')) from by
      simpa [List.append_assoc] using h2)
  exact (List.append_inj h3 hlen).1

theorem runState_eq {rule : List Char} {st : ConvState} (h : runState rule = some st) :
    ∃ as_ cs ta tc, parse_swrl_rule rule = .ok (as_, cs) ∧
      parseAtomsTagged .antecedent as_ = .ok ta ∧
      parseAtomsTagged .consequent cs = .ok tc ∧
      st = buildModel (ta ++ tc) initState := by
  unfold runState at h
  cases hpr : parse_swrl_rule rule with
  | error e =>
    rw [generate_dot_parse_error hpr] at h
    exact Option.noConfusion h
  | ok pr =>
    obtain ⟨as_, cs⟩ := pr
    cases hta : parseAtomsTagged .antecedent as_ with
    | error e =>
      rw [generate_dot_ante_error hpr hta] at h
      exact Option.noConfusion h
    | ok ta =>
      cases htc : parseAtomsTagged .consequent cs with
      | error e =>
        rw [generate_dot_cons_error hpr hta htc] at h
        exact Option.noConfusion h
      | ok tc =>
        rw [generate_dot_ok hpr hta htc] at h
        refine ⟨as_, cs, ta, tc, rfl, hta, htc, ?_⟩
        have h2 : some (buildModel (ta ++ tc) { initState with atoms := initState.atoms })
            = some st := h
        injection h2 with h2
        rw [← h2]

theorem parsedAtomsOf_eq {rule : List Char} {as_ cs : List (List Char)}
    {ta tc : List (Atom × RulePart)}
    (hpr : parse_swrl_rule rule = .ok (as_, cs))
    (hta : parseAtomsTagged .antecedent as_ = .ok ta)
    (htc : parseAtomsTagged .consequent cs = .ok tc) :
    parsedAtomsOf rule = ta ++ tc := by
  unfold parsedAtomsOf
  rw [hpr]
  simp [hta, htc]

theorem runState_predicates {rule : List Char} {st : ConvState} (h : runState rule = some st) :
    ∀ pr ∈ st.properties, ∀ c ∈ pr.predicate, isWordChar c = true ∨ c = ':' := by
  obtain ⟨as_, cs, ta, tc, hpr, hta, htc, hst⟩ := runState_eq h
  subst hst
  refine buildModel_predicate_chars ?_
  intro t ht
  rcases List.mem_append.mp ht with h1 | h1
  · obtain ⟨_, a, _, hpa⟩ := parseAtomsTagged_mem hta t h1
    exact ⟨a, hpa⟩
  · obtain ⟨_, a, _, hpa⟩ := parseAtomsTagged_mem htc t h1
    exact ⟨a, hpa⟩

theorem count_dotLines (st : ConvState) (x : List Char)
    (h1 : x ∉ headerLines) (h2 : x ≠ lit "    // Classes") (h3 : x ≠ [])
    (h4 : x ≠ lit "    // Variables (Instances)") (h5 : x ≠ lit "    // Literals")
    (h6 : x ≠ lit "    // Class Assertions (rdf:type)") (h7 : x ≠ lit "    // Properties")
    (h8 : x ≠ lit "\x7d") :
    (dotLines st).count x =
      ((sortedClasses st).map classNodeLine).count x
      + ((sortedVars st).map varNodeLine).count x
      + ((sortedLits st).map litNodeLine).count x
      + (rdfEdges st).count x + (propEdges st).count x := by
  unfold dotLines
  simp only [List.count_append, List.count_cons, List.count_nil, beq_iff_eq]
  rw [List.count_eq_zero.mpr h1]
  have g2 : ¬(lit "    // Classes" = x) := fun he => h2 he.symm
  have g3 : ¬(([] : List Char) = x) := fun he => h3 he.symm
  have g4 : ¬(lit "    // Variables (Instances)" = x) := fun he => h4 he.symm
  have g5 : ¬(lit "    // Literals" = x) := fun he => h5 he.symm
  have g6 : ¬(lit "    // Class Assertions (rdf:type)" = x) := fun he => h6 he.symm
  have g7 : ¬(lit "    // Properties" = x) := fun he => h7 he.symm
  have g8 : ¬(lit "\x7d" = x) := fun he => h8 he.symm
  simp only [if_neg g2, if_neg g3, if_neg g4, if_neg g5, if_neg g6, if_neg g7, if_neg g8]
  omega

theorem count_map_inj {f : List Char → List Char} (hf : ∀ a b : List Char, f a = f b → a = b) :
    ∀ (l : List (List Char)) (x : List Char), (l.map f).count (f x) = l.count x := by
  intro l x
  induction l with
  | nil => rfl
  | cons a l ih =>
    rw [List.map_cons, List.count_cons, List.count_cons, ih]
    by_cases h : x = a
    · subst h
      simp
    · rw [if_neg (by simpa using fun he => h (hf _ _ he).symm), if_neg (by simpa using fun he => h he.symm)]

theorem count_eq_one_nodup_mem :
    ∀ {l : List (List Char)} {x : List Char}, l.Nodup → x ∈ l → l.count x = 1 := by
  intro l
  induction l with
  | nil => intro x _ hx; simp at hx
  | cons a l ih =>
    intro x hnd hx
    rw [List.count_cons]
    rcases List.mem_cons.mp hx with h | h
    · subst h
      rw [List.count_eq_zero.mpr (List.nodup_cons.mp hnd).1]
      simp
    · have hne : x ≠ a := by
        intro he
        subst he
        exact (List.nodup_cons.mp hnd).1 h
      rw [ih (List.nodup_cons.mp hnd).2 h, if_neg (by simpa using fun he => hne he.symm)]

theorem classNodeLine_count {st : ConvState} {c : List Char}
    (hc : c ∈ pySet (classOccs st)) :
    (dotLines st).count (classNodeLine c) = 1 := by
  have hne : ∀ y : List Char, tailK 9 y ≠ tailK 9
      (lit "\" [shape=ellipse, fillcolor=lightgreen, style=filled];") →
      classNodeLine c ≠ y := by
    intro y hy
    exact fun he => hy (by rw [← he, tail_classNodeLine 9 c (by decide)])
  rw [count_dotLines st (classNodeLine c)
    (by
      intro hmem
      simp only [headerLines, List.mem_cons, List.not_mem_nil, or_false] at hmem
      rcases hmem with h | h | h | h
      · exact hne _ (by decide) h
      · exact hne _ (by decide) h
      · exact hne _ (by decide) h
      · exact hne _ (by decide) h)
    (hne _ (by decide)) (hne _ (by decide)) (hne _ (by decide)) (hne _ (by decide))
    (hne _ (by decide)) (hne _ (by decide)) (hne _ (by decide))]
  have hcls : (List.map classNodeLine (sortedClasses st)).count (classNodeLine c) = 1 := by
    rw [count_map_inj (fun a b h => classNodeLine_inj h)]
    exact count_eq_one_nodup_mem (nodup_pySorted (nodup_pySet _)) (mem_pySorted.mpr hc)
  have hvar : (List.map varNodeLine (sortedVars st)).count (classNodeLine c) = 0 := by
    rw [List.count_eq_zero]
    intro hmem
    obtain ⟨v, _, hv⟩ := List.mem_map.mp hmem
    exact hne _ (by rw [tail_varNodeLine 9 v (by decide)]; decide) hv.symm
  have hlit : (List.map litNodeLine (sortedLits st)).count (classNodeLine c) = 0 := by
    rw [List.count_eq_zero]
    intro hmem
    obtain ⟨l, _, hl⟩ := List.mem_map.mp hmem
    exact hne _ (by rw [tail_litNodeLine 9 l (by decide)]; decide) hl.symm
  have hrdf : (rdfEdges st).count (classNodeLine c) = 0 := by
    rw [List.count_eq_zero]
    intro hmem
    unfold rdfEdges at hmem
    obtain ⟨v, _, hv⟩ := List.mem_flatMap.mp hmem
    obtain ⟨e, _, he⟩ := List.mem_map.mp hv
    cases hp : e.2 with
    | antecedent =>
      rw [hp] at he
      exact hne _ (by rw [tail_rdfEdgeLine_ante 9 e.1 v (by decide)]; decide) he.symm
    | consequent =>
      rw [hp] at he
      exact hne _ (by rw [tail_rdfEdgeLine_cons 9 e.1 v (by decide)]; decide) he.symm
  have hprop : (propEdges st).count (classNodeLine c) = 0 := by
    rw [List.count_eq_zero]
    intro hmem
    unfold propEdges at hmem
    obtain ⟨pr, _, hp⟩ := List.mem_map.mp hmem
    cases hpp : pr.part with
    | antecedent =>
      rw [hpp] at hp
      refine ne_of_tailK (k := 3) ?_ hp.symm
      rw [tail_propEdgeLine_ante 3 _ _ _ (by decide), tail_classNodeLine 3 c (by decide)]
      decide
    | consequent =>
      rw [hpp] at hp
      exact hne _ (by rw [tail_propEdgeLine_cons 9 _ _ _ (by decide)]; decide) hp.symm
  omega

theorem litNodeLine_count {st : ConvState} {l0 : List Char}
    (hl0 : l0 ∈ pySet (litOccs st)) :
    (dotLines st).count (litNodeLine l0) = 1 := by
  have hne : ∀ y : List Char, tailK 9 y ≠ tailK 9
      (lit "\" [shape=box, style=filled, fillcolor=lightyellow];") →
      litNodeLine l0 ≠ y := by
    intro y hy
    exact fun he => hy (by rw [← he, tail_litNodeLine 9 l0 (by decide)])
  rw [count_dotLines st (litNodeLine l0)
    (by
      intro hmem
      simp only [headerLines, List.mem_cons, List.not_mem_nil, or_false] at hmem
      rcases hmem with h | h | h | h
      · exact hne _ (by decide) h
      · exact hne _ (by decide) h
      · exact hne _ (by decide) h
      · exact hne _ (by decide) h)
    (hne _ (by decide)) (hne _ (by decide)) (hne _ (by decide)) (hne _ (by decide))
    (hne _ (by decide)) (hne _ (by decide)) (hne _ (by decide))]
  have hlit : (List.map litNodeLine (sortedLits st)).count (litNodeLine l0) = 1 := by
    rw [count_map_inj (fun a b h => litNodeLine_inj h)]
    exact count_eq_one_nodup_mem (nodup_pySorted (nodup_pySet _)) (mem_pySorted.mpr hl0)
  have hcls : (List.map classNodeLine (sortedClasses st)).count (litNodeLine l0) = 0 := by
    rw [List.count_eq_zero]
    intro hmem
    obtain ⟨v, _, hv⟩ := List.mem_map.mp hmem
    exact hne _ (by rw [tail_classNodeLine 9 v (by decide)]; decide) hv.symm
  have hvar : (List.map varNodeLine (sortedVars st)).count (litNodeLine l0) = 0 := by
    rw [List.count_eq_zero]
    intro hmem
    obtain ⟨v, _, hv⟩ := List.mem_map.mp hmem
    exact hne _ (by rw [tail_varNodeLine 9 v (by decide)]; decide) hv.symm
  have hrdf : (rdfEdges st).count (litNodeLine l0) = 0 := by
    rw [List.count_eq_zero]
    intro hmem
    unfold rdfEdges at hmem
    obtain ⟨v, _, hv⟩ := List.mem_flatMap.mp hmem
    obtain ⟨e, _, he⟩ := List.mem_map.mp hv
    cases hp : e.2 with
    | antecedent =>
      rw [hp] at he
      exact hne _ (by rw [tail_rdfEdgeLine_ante 9 e.1 v (by decide)]; decide) he.symm
    | consequent =>
      rw [hp] at he
      exact hne _ (by rw [tail_rdfEdgeLine_cons 9 e.1 v (by decide)]; decide) he.symm
  have hprop : (propEdges st).count (litNodeLine l0) = 0 := by
    rw [List.count_eq_zero]
    intro hmem
    unfold propEdges at hmem
    obtain ⟨pr, _, hp⟩ := List.mem_map.mp hmem
    cases hpp : pr.part with
    | antecedent =>
      rw [hpp] at hp
      refine ne_of_tailK (k := 3) ?_ hp.symm
      rw [tail_propEdgeLine_ante 3 _ _ _ (by decide), tail_litNodeLine 3 l0 (by decide)]
      decide
    | consequent =>
      rw [hpp] at hp
      exact hne _ (by rw [tail_propEdgeLine_cons 9 _ _ _ (by decide)]; decide) hp.symm
  omega

theorem varNodeLine_count {st : ConvState} {v0 : List Char}
    (hwf : ∀ pr ∈ st.properties, ∀ c ∈ pr.predicate, isWordChar c = true ∨ c = ':')
    (hnd : st.vars.Nodup) (hv0 : v0 ∈ st.vars) :
    (dotLines st).count (varNodeLine v0) = 1 := by
  have hne : ∀ y : List Char, tailK 9 y ≠ tailK 9
      (lit "\", fillcolor=lightblue, style=\"rounded,filled\"];") →
      varNodeLine v0 ≠ y := by
    intro y hy
    exact fun he => hy (by rw [← he, tail_varNodeLine 9 v0 (by decide)])
  rw [count_dotLines st (varNodeLine v0)
    (by
      intro hmem
      simp only [headerLines, List.mem_cons, List.not_mem_nil, or_false] at hmem
      rcases hmem with h | h | h | h
      · exact hne _ (by decide) h
      · exact hne _ (by decide) h
      · exact hne _ (by decide) h
      · exact hne _ (by decide) h)
    (hne _ (by decide)) (hne _ (by decide)) (hne _ (by decide)) (hne _ (by decide))
    (hne _ (by decide)) (hne _ (by decide)) (hne _ (by decide))]
  have hvar : (List.map varNodeLine (sortedVars st)).count (varNodeLine v0) = 1 := by
    rw [count_map_inj (fun a b h => varNodeLine_inj h)]
    exact count_eq_one_nodup_mem (nodup_pySorted hnd) (mem_pySorted.mpr hv0)
  have hcls : (List.map classNodeLine (sortedClasses st)).count (varNodeLine v0) = 0 := by
    rw [List.count_eq_zero]
    intro hmem
    obtain ⟨c, _, hcv⟩ := List.mem_map.mp hmem
    exact hne _ (by rw [tail_classNodeLine 9 c (by decide)]; decide) hcv.symm
  have hlit : (List.map litNodeLine (sortedLits st)).count (varNodeLine v0) = 0 := by
    rw [List.count_eq_zero]
    intro hmem
    obtain ⟨c, _, hcv⟩ := List.mem_map.mp hmem
    exact hne _ (by rw [tail_litNodeLine 9 c (by decide)]; decide) hcv.symm
  have hrdf : (rdfEdges st).count (varNodeLine v0) = 0 := by
    rw [List.count_eq_zero]
    intro hmem
    unfold rdfEdges at hmem
    obtain ⟨v, _, hv⟩ := List.mem_flatMap.mp hmem
    obtain ⟨e, _, he⟩ := List.mem_map.mp hv
    cases hp : e.2 with
    | antecedent =>
      rw [hp] at he
      exact hne _ (by rw [tail_rdfEdgeLine_ante 9 e.1 v (by decide)]; decide) he.symm
    | consequent =>
      rw [hp] at he
      exact hne _ (by rw [tail_rdfEdgeLine_cons 9 e.1 v (by decide)]; decide) he.symm
  have hprop : (propEdges st).count (varNodeLine v0) = 0 := by
    rw [List.count_eq_zero]
    intro hmem
    unfold propEdges at hmem
    obtain ⟨pr, hpr, hp⟩ := List.mem_map.mp hmem
    cases hpp : pr.part with
    | antecedent =>
      rw [hpp] at hp
      exact varNode_ne_propAnte (hwf pr hpr) hp.symm
    | consequent =>
      rw [hpp] at hp
      exact hne _ (by rw [tail_propEdgeLine_cons 9 _ _ _ (by decide)]; decide) hp.symm
  omega

theorem rdfEdges_length {rule : List Char} {st : ConvState} (h : runState rule = some st) :
    (rdfEdges st).length = (parsedAtomsOf rule).countP (fun t => isClassAtom t.1) := by
  obtain ⟨as_, cs, ta, tc, hpr, hta, htc, hst⟩ := runState_eq h
  rw [parsedAtomsOf_eq hpr hta htc]
  subst hst
  unfold rdfEdges
  rw [List.length_flatMap]
  have hpt : ∀ v ∈ sortedVars (buildModel (ta ++ tc) initState),
      (List.length ∘ fun v => ((lookupD (buildModel (ta ++ tc) initState).classes v).map
        (fun e => rdfEdgeLine e.1 v e.2))) v
      = ((ta ++ tc).filterMap (classProj v)).length := by
    intro v _
    show ((lookupD (buildModel (ta ++ tc) initState).classes v).map
      (fun e => rdfEdgeLine e.1 v e.2)).length = _
    rw [List.length_map, buildModel_lookupD]
    simp [initState, lookupD]
  rw [List.map_congr_left hpt]
  refine sum_filterMap_classProj (ta ++ tc) _
    (nodup_pySorted (buildModel_vars_nodup _ _ (by simp [initState]))) ?_
  intro p cn w part hmem
  refine mem_pySorted.mpr ((buildModel_vars_mem _ _ w).mpr (Or.inr ?_))
  exact List.mem_flatMap.mpr ⟨(Atom.classAtom p cn w, part), hmem, by simp [varMentions]⟩

theorem propEdges_length {rule : List Char} {st : ConvState} (h : runState rule = some st) :
    (propEdges st).length = (parsedAtomsOf rule).countP (fun t => isPropAtom t.1) := by
  obtain ⟨as_, cs, ta, tc, hpr, hta, htc, hst⟩ := runState_eq h
  rw [parsedAtomsOf_eq hpr hta htc]
  subst hst
  unfold propEdges
  rw [List.length_map, buildModel_properties]
  simp [initState, filterMap_propProj_length]

theorem runState_isSome_eq {rule : List Char} (h : (runState rule).isSome = true) :
    runState rule = some (modelOf rule) := by
  unfold modelOf
  cases hr : runState rule with
  | none => rw [hr] at h; exact Bool.noConfusion h
  | some st => rfl

set_option maxRecDepth 80000 in
/-- C5: in a successful conversion every distinct fully-qualified class name,
variable, and literal is declared as a node exactly once in the emitted lines;
edges are never deduplicated: the `rdf:type` edge lines are exactly one per
class atom and the property edge lines exactly one per property atom, so a
duplicated atom duplicates its edge, as in `A:B(?x) ^ A:B(?x) -> A:C(?x)`,
whose rdf:type edge `A:B -> ?x` appears twice while the class nodes `A:B` and
`A:C` are declared once each. -/
theorem C5_nodes_once_edges_dup (rule : List Char) (h : (runState rule).isSome = true) :
    (∀ c ∈ pySet (classOccs (modelOf rule)),
      (dotLines (modelOf rule)).count (classNodeLine c) = 1) ∧
    (∀ v ∈ (modelOf rule).vars, (dotLines (modelOf rule)).count (varNodeLine v) = 1) ∧
    (∀ l ∈ pySet (litOccs (modelOf rule)),
      (dotLines (modelOf rule)).count (litNodeLine l) = 1) ∧
    (rdfEdges (modelOf rule)).length
      = (parsedAtomsOf rule).countP (fun t => isClassAtom t.1) ∧
    (propEdges (modelOf rule)).length
      = (parsedAtomsOf rule).countP (fun t => isPropAtom t.1) ∧
    (dotLines (modelOf (lit "A:B(?x) ^ A:B(?x) -> A:C(?x)"))).count
      (rdfEdgeLine (lit "A:B") (lit "?x") .antecedent) = 2 ∧
    (dotLines (modelOf (lit "A:B(?x) ^ A:B(?x) -> A:C(?x)"))).count
      (classNodeLine (lit "A:B")) = 1 ∧
    (dotLines (modelOf (lit "A:B(?x) ^ A:B(?x) -> A:C(?x)"))).count
      (classNodeLine (lit "A:C")) = 1 := by
  have h2 := runState_isSome_eq h
  have hnd : (modelOf rule).vars.Nodup := by
    obtain ⟨as_, cs, ta, tc, hpr, hta, htc, hst⟩ := runState_eq h2
    rw [hst]
    exact buildModel_vars_nodup _ _ (by simp [initState])
  exact ⟨fun c hc => classNodeLine_count hc,
    fun v hv => varNodeLine_count (runState_predicates h2) hnd hv,
    fun l hl => litNodeLine_count hl,
    rdfEdges_length h2, propEdges_length h2, by decide, by decide, by decide⟩

set_option maxRecDepth 80000 in
theorem C5_nodes_once_edges_dup_witness :
    (dotLines (modelOf (lit "A:B(?x) ^ A:B(?x) -> A:C(?x)"))).count
      (varNodeLine (lit "?x")) = 1 ∧
    (rdfEdges (modelOf (lit "A:B(?x) ^ A:B(?x) -> A:C(?x)"))).length
      = (parsedAtomsOf (lit "A:B(?x) ^ A:B(?x) -> A:C(?x)")).countP
          (fun t => isClassAtom t.1) := by
  have h := C5_nodes_once_edges_dup (lit "A:B(?x) ^ A:B(?x) -> A:C(?x)") (by decide)
  exact ⟨h.2.1 (lit "?x") (by decide), h.2.2.2.1⟩

theorem runText_eq {rule : List Char} (h : (runState rule).isSome = true) :
    runText rule = some (_create_dot_graph (modelOf rule)) := by
  have h2 := runState_isSome_eq h
  obtain ⟨as_, cs, ta, tc, hpr, hta, htc, hst⟩ := runState_eq h2
  unfold runText
  rw [generate_dot_ok hpr hta htc]
  rw [hst]
  rfl

/-- C6: the emitted lines are exactly header, then class nodes, variable
nodes, and literal nodes (each group lexicographically sorted and drawn from
the model regardless of atom order), then the `rdf:type` edges iterating
variables in sorted order with each variable's class assertions in original
atom order, then the property edges in original atom order (antecedent atoms
left to right, then consequent atoms), then the closing brace. -/
theorem C6_emission_order (rule : List Char) (h : (runState rule).isSome = true) :
    runText rule = some (joinLines (dotLines (modelOf rule))) ∧
    dotLines (modelOf rule)
      = headerLines
        ++ (lit "    // Classes" :: (sortedClasses (modelOf rule)).map classNodeLine) ++ [[]]
        ++ (lit "    // Variables (Instances)"
            :: (sortedVars (modelOf rule)).map varNodeLine) ++ [[]]
        ++ (lit "    // Literals" :: (sortedLits (modelOf rule)).map litNodeLine) ++ [[]]
        ++ (lit "    // Class Assertions (rdf:type)" :: rdfEdges (modelOf rule)) ++ [[]]
        ++ (lit "    // Properties" :: propEdges (modelOf rule))
        ++ [lit "\x7d"] ∧
    List.Sorted lexLeP (sortedClasses (modelOf rule)) ∧
    List.Sorted lexLeP (sortedVars (modelOf rule)) ∧
    List.Sorted lexLeP (sortedLits (modelOf rule)) ∧
    (∀ c, c ∈ sortedClasses (modelOf rule) ↔ c ∈ classOccs (modelOf rule)) ∧
    (∀ v, v ∈ sortedVars (modelOf rule) ↔ v ∈ (modelOf rule).vars) ∧
    (∀ l, l ∈ sortedLits (modelOf rule) ↔ l ∈ litOccs (modelOf rule)) ∧
    rdfEdges (modelOf rule)
      = (sortedVars (modelOf rule)).flatMap (fun v =>
          ((parsedAtomsOf rule).filterMap (classProj v)).map
            (fun e => rdfEdgeLine e.1 v e.2)) ∧
    propEdges (modelOf rule)
      = ((parsedAtomsOf rule).filterMap propProj).map
          (fun p => propEdgeLine p.subject p.predicate p.obj p.part) := by
  have h2 := runState_isSome_eq h
  obtain ⟨as_, cs, ta, tc, hpr, hta, htc, hst⟩ := runState_eq h2
  refine ⟨runText_eq h, rfl, pySorted_sorted _, pySorted_sorted _, pySorted_sorted _,
    fun c => mem_pySorted.trans mem_pySet, fun v => mem_pySorted,
    fun l => mem_pySorted.trans mem_pySet, ?_, ?_⟩
  · unfold rdfEdges
    refine congrArg _ (funext fun v => ?_)
    rw [parsedAtomsOf_eq hpr hta htc, hst, buildModel_lookupD]
    simp [initState, lookupD]
  · unfold propEdges
    rw [parsedAtomsOf_eq hpr hta htc, hst, buildModel_properties]
    simp [initState]

theorem C6_emission_order_witness :
    runText (lit "A:Foo(?x) -> A:hasVal(?x, 5)")
      = some (joinLines (dotLines (modelOf (lit "A:Foo(?x) -> A:hasVal(?x, 5)")))) ∧
    List.Sorted lexLeP (sortedClasses (modelOf (lit "A:Foo(?x) -> A:hasVal(?x, 5)"))) ∧
    (lit "A:Foo" ∈ sortedClasses (modelOf (lit "A:Foo(?x) -> A:hasVal(?x, 5)"))
      ↔ lit "A:Foo" ∈ classOccs (modelOf (lit "A:Foo(?x) -> A:hasVal(?x, 5)"))) ∧
    propEdges (modelOf (lit "A:Foo(?x) -> A:hasVal(?x, 5)"))
      = ((parsedAtomsOf (lit "A:Foo(?x) -> A:hasVal(?x, 5)")).filterMap propProj).map
          (fun p => propEdgeLine p.subject p.predicate p.obj p.part) := by
  have h := C6_emission_order (lit "A:Foo(?x) -> A:hasVal(?x, 5)") (by decide)
  exact ⟨h.1, h.2.2.1, h.2.2.2.2.2.1 (lit "A:Foo"), h.2.2.2.2.2.2.2.2.2⟩
